import Mathlib

/-! RealTime-Chat-QUIC: the PDU codec and the server registry.

A shallow embedding of `pkg/pdu/pdu.go`, `pkg/server/server.go` and of the
payload built by `pkg/client/client.go`.

Go strings and byte slices are byte sequences: they are `List Nat` here, every
element standing for one byte (`< 256`). Text constants are written as their
ASCII codes, with the text in a comment next to them.
-/

namespace Chat

/-! ## Go library functions used by the source: `strconv`, `encoding/base64` -/

/-- Decimal digits of `n`, most significant first, pushed in front of `acc`
(`strconv.AppendUint(_, n, 10)`); `fuel` bounds the number of digits. -/
def formatBits : Nat → Nat → List Nat → List Nat
  | 0, _, acc => acc
  | fuel + 1, n, acc =>
    if n / 10 = 0 then (48 + n % 10) :: acc
    else formatBits fuel (n / 10) ((48 + n % 10) :: acc)

/-- The text of an unsigned integer in base 10, as `encoding/json` writes it. -/
def formatUint (n : Nat) : List Nat := formatBits (n + 1) n []

/-- Is `c` an ASCII digit `0`..`9`. -/
def isDigit (c : Nat) : Bool := decide (48 ≤ c) && decide (c ≤ 57)

/-- The loop of `strconv.ParseUint(s, 10, 64)` over the bytes of `s`: every byte
must be a digit, and the value must stay below `2^64`. -/
def parseUintLoop : List Nat → Nat → Option Nat
  | [], acc => some acc
  | c :: cs, acc =>
    if isDigit c then
      if acc * 10 + (c - 48) < 2 ^ 64 then parseUintLoop cs (acc * 10 + (c - 48)) else none
    else none

/-- The function `strconv.ParseUint(s, 10, 64)`: `none` stands for its error
(empty text, a byte that is no digit, or a value out of range). -/
def parseUint (s : List Nat) : Option Nat :=
  match s with
  | [] => none
  | _ :: _ => parseUintLoop s 0

/-- The alphabet of `base64.StdEncoding`: the character of a 6-bit value. -/
def b64Char (i : Nat) : Nat :=
  if i < 26 then 65 + i
  else if i < 52 then 97 + (i - 26)
  else if i < 62 then 48 + (i - 52)
  else if i = 62 then 43
  else 47

/-- The decode map of `base64.StdEncoding`: the 6-bit value of a character, or
`none` for a byte outside the alphabet (the padding `=` included). -/
def b64Value (c : Nat) : Option Nat :=
  if 65 ≤ c ∧ c ≤ 90 then some (c - 65)
  else if 97 ≤ c ∧ c ≤ 122 then some (c - 97 + 26)
  else if 48 ≤ c ∧ c ≤ 57 then some (c - 48 + 52)
  else if c = 43 then some 62
  else if c = 47 then some 63
  else none

/-- The function `base64.StdEncoding.EncodeToString`: three bytes give four
characters, the last group is padded with `=` (61). -/
def b64Encode : List Nat → List Nat
  | [] => []
  | [a] => [b64Char (a / 4), b64Char (a % 4 * 16), 61, 61]
  | [a, b] => [b64Char (a / 4), b64Char (a % 4 * 16 + b / 16), b64Char (b % 16 * 4), 61]
  | a :: b :: c :: rest =>
    b64Char (a / 4) :: b64Char (a % 4 * 16 + b / 16) :: b64Char (b % 16 * 4 + c / 64)
      :: b64Char (c % 64) :: b64Encode rest

/-- Decoding of the quanta of four characters of `base64.StdEncoding.Decode`
(padded, not strict): padding is accepted in the last quantum only, at its
third and fourth or at its fourth place. -/
def b64DecodeQuanta : List Nat → Option (List Nat)
  | [] => some []
  | a :: b :: c :: d :: rest =>
    match b64Value a, b64Value b with
    | some x, some y =>
      if c = 61 then
        if d = 61 ∧ rest = [] then some [x * 4 + y / 16] else none
      else
        match b64Value c with
        | none => none
        | some z =>
          if d = 61 then
            if rest = [] then some [x * 4 + y / 16, y % 16 * 16 + z / 4] else none
          else
            match b64Value d with
            | none => none
            | some w =>
              (b64DecodeQuanta rest).map
                (fun out => (x * 4 + y / 16) :: (y % 16 * 16 + z / 4) :: (z % 4 * 64 + w) :: out)
    | _, _ => none
  | _ => none

/-- The function `base64.StdEncoding.DecodeString`: carriage returns and line
feeds are skipped, the rest is decoded by quanta; `none` is `CorruptInputError`. -/
def b64Decode (s : List Nat) : Option (List Nat) :=
  b64DecodeQuanta (s.filter (fun c => !(c = 13 || c = 10)))

/-! ## Go library functions used by the source: `encoding/json`

`json.Unmarshal` first checks the whole input against the JSON grammar
(`checkValid`), then walks the value and stores it in the target. Both passes
follow the same grammar, so the model parses the input into a tree and stores
the tree afterwards. -/

/-- A JSON value as the decoder of `encoding/json` sees it: a number keeps its
text, a string is already unquoted. -/
inductive JValue where
  | null : JValue
  | bool (b : Bool) : JValue
  | number (text : List Nat) : JValue
  | string (s : List Nat) : JValue
  | array (items : List JValue) : JValue
  | object (members : List (List Nat × JValue)) : JValue

/-- The white space of the JSON scanner: space, tab, carriage return, line feed. -/
def isSpace (c : Nat) : Bool := c = 32 || c = 9 || c = 13 || c = 10

/-- Skips the white space in front of the next token. -/
def skipSpace : List Nat → List Nat
  | [] => []
  | c :: cs => if isSpace c then skipSpace cs else c :: cs

/-- The value of a hexadecimal digit (`getu4`). -/
def hexValue (c : Nat) : Option Nat :=
  if 48 ≤ c ∧ c ≤ 57 then some (c - 48)
  else if 97 ≤ c ∧ c ≤ 102 then some (c - 97 + 10)
  else if 65 ≤ c ∧ c ≤ 70 then some (c - 65 + 10)
  else none

/-- The four hexadecimal digits of a `\u` escape as a code unit. -/
def hex4 (a b c d : Nat) : Option Nat :=
  match hexValue a, hexValue b, hexValue c, hexValue d with
  | some x, some y, some z, some w => some (x * 4096 + y * 256 + z * 16 + w)
  | _, _, _, _ => none

/-- The UTF-8 bytes of a code unit of a `\u` escape (`utf8.EncodeRune`); a
surrogate is written as U+FFFD. The decoder joins a pair of surrogates into one
rune of four bytes; as no byte above 127 occurs in a field name or in the base64
alphabet, the bytes chosen for a rune above 127 do not change what is stored. -/
def encodeRune (r : Nat) : List Nat :=
  if r < 128 then [r]
  else if r < 2048 then [192 + r / 64, 128 + r % 64]
  else if 55296 ≤ r ∧ r < 57344 then [239, 191, 189]
  else [224 + r / 4096, 128 + r / 64 % 64, 128 + r % 64]

/-- The byte of a one-letter escape after a backslash. -/
def escapeByte (c : Nat) : Option Nat :=
  if c = 34 then some 34          -- \"
  else if c = 92 then some 92     -- \\
  else if c = 47 then some 47     -- \/
  else if c = 98 then some 8      -- \b
  else if c = 102 then some 12    -- \f
  else if c = 110 then some 10    -- \n
  else if c = 114 then some 13    -- \r
  else if c = 116 then some 9     -- \t
  else none

/-- Scans a string literal after its opening quote up to the closing quote and
unquotes it: returns the bytes of the string and the input after the closing
quote. A control byte, a wrong escape or the end of the input is an error. -/
def scanString : List Nat → Option (List Nat × List Nat)
  | [] => none
  | c :: cs =>
    if c = 34 then some ([], cs)
    else if c = 92 then
      match cs with
      | [] => none
      | e :: cs1 =>
        if e = 117 then
          match cs1 with
          | h1 :: h2 :: h3 :: h4 :: cs2 =>
            match hex4 h1 h2 h3 h4 with
            | none => none
            | some r => (scanString cs2).map (fun p => (encodeRune r ++ p.1, p.2))
          | _ => none
        else
          match escapeByte e with
          | none => none
          | some b => (scanString cs1).map (fun p => (b :: p.1, p.2))
    else if c < 32 then none
    else (scanString cs).map (fun p => (c :: p.1, p.2))

/-- Splits off the longest run of digits. -/
def spanDigits : List Nat → List Nat × List Nat
  | [] => ([], [])
  | c :: cs => if isDigit c then ((spanDigits cs).1.cons c, (spanDigits cs).2) else ([], c :: cs)

/-- The integer part of a number: `0`, or a digit `1`..`9` followed by digits. -/
def scanInt : List Nat → Option (List Nat × List Nat)
  | [] => none
  | c :: cs =>
    if c = 48 then some ([48], cs)
    else if isDigit c then some (c :: (spanDigits cs).1, (spanDigits cs).2)
    else none

/-- The optional fraction of a number: a dot followed by at least one digit. -/
def scanFrac : List Nat → Option (List Nat × List Nat)
  | [] => some ([], [])
  | c :: cs =>
    if c = 46 then
      if (spanDigits cs).1 = [] then none else some (c :: (spanDigits cs).1, (spanDigits cs).2)
    else some ([], c :: cs)

/-- The digits of an exponent, after `e` or `E` and the optional sign. -/
def scanExpDigits (cs : List Nat) : Option (List Nat × List Nat) :=
  if (spanDigits cs).1 = [] then none else some (spanDigits cs)

/-- The optional exponent of a number. -/
def scanExp : List Nat → Option (List Nat × List Nat)
  | [] => some ([], [])
  | c :: cs =>
    if c = 101 ∨ c = 69 then
      match cs with
      | [] => none
      | s :: cs1 =>
        if s = 43 ∨ s = 45 then (scanExpDigits cs1).map (fun p => (c :: s :: p.1, p.2))
        else (scanExpDigits cs).map (fun p => (c :: p.1, p.2))
    else some ([], c :: cs)

/-- Scans a number literal: optional minus, integer part, optional fraction,
optional exponent. Returns the text of the literal and the input after it. -/
def scanNumber (cs : List Nat) : Option (List Nat × List Nat) :=
  let signed : List Nat × List Nat :=
    match cs with
    | [] => ([], [])
    | c :: cs1 => if c = 45 then ([45], cs1) else ([], c :: cs1)
  match scanInt signed.2 with
  | none => none
  | some (i, r1) =>
    match scanFrac r1 with
    | none => none
    | some (f, r2) =>
      match scanExp r2 with
      | none => none
      | some (e, r3) => some (signed.1 ++ i ++ f ++ e, r3)

/-- Consumes the byte `c` when it is the next byte of the input. -/
def expect (c : Nat) : List Nat → Option (List Nat)
  | [] => none
  | d :: cs => if d = c then some cs else none

/-- Consumes the bytes `w` when the input starts with them. -/
def expectWord : List Nat → List Nat → Option (List Nat)
  | [], cs => some cs
  | c :: w, cs => (expect c cs).bind (expectWord w)

/-- The nesting limit of the JSON scanner (`maxNestingDepth`). -/
def maxNestingDepth : Nat := 10000

mutual
/-- Parses one JSON value in front of the input, white space before it
skipped; `depth` is the number of arrays and objects open around it. `fuel`
bounds the number of calls; the length of the input plus one is enough. -/
def parseValue : Nat → Nat → List Nat → Option (JValue × List Nat)
  | 0, _, _ => none
  | fuel + 1, depth, cs =>
    match skipSpace cs with
    | [] => none
    | c :: rest =>
      if c = 123 then                        -- {
        if maxNestingDepth ≤ depth then none
        else
          match expect 125 (skipSpace rest) with
          | some rest1 => some (JValue.object [], rest1)
          | none => (parseMembers fuel (depth + 1) rest).map (fun p => (JValue.object p.1, p.2))
      else if c = 91 then                    -- [
        if maxNestingDepth ≤ depth then none
        else
          match expect 93 (skipSpace rest) with
          | some rest1 => some (JValue.array [], rest1)
          | none => (parseItems fuel (depth + 1) rest).map (fun p => (JValue.array p.1, p.2))
      else if c = 34 then (scanString rest).map (fun p => (JValue.string p.1, p.2))
      else if c = 116 then (expectWord [114, 117, 101] rest).map (fun r => (JValue.bool true, r))
      else if c = 102 then
        (expectWord [97, 108, 115, 101] rest).map (fun r => (JValue.bool false, r))
      else if c = 110 then (expectWord [117, 108, 108] rest).map (fun r => (JValue.null, r))
      else if c = 45 ∨ isDigit c then
        (scanNumber (c :: rest)).map (fun p => (JValue.number p.1, p.2))
      else none
/-- Parses the members of an object after `{` or after a comma, up to and with
the closing `}`. -/
def parseMembers : Nat → Nat → List Nat → Option (List (List Nat × JValue) × List Nat)
  | 0, _, _ => none
  | fuel + 1, depth, cs =>
    match expect 34 (skipSpace cs) with
    | none => none
    | some r0 =>
      match scanString r0 with
      | none => none
      | some (key, r1) =>
        match expect 58 (skipSpace r1) with
        | none => none
        | some r2 =>
          match parseValue fuel depth r2 with
          | none => none
          | some (v, r3) =>
            match skipSpace r3 with
            | [] => none
            | d :: r4 =>
              if d = 44 then (parseMembers fuel depth r4).map (fun p => ((key, v) :: p.1, p.2))
              else if d = 125 then some ([(key, v)], r4)
              else none
/-- Parses the items of an array after `[` or after a comma, up to and with
the closing `]`. -/
def parseItems : Nat → Nat → List Nat → Option (List JValue × List Nat)
  | 0, _, _ => none
  | fuel + 1, depth, cs =>
    match parseValue fuel depth cs with
    | none => none
    | some (v, r1) =>
      match skipSpace r1 with
      | [] => none
      | d :: r2 =>
        if d = 44 then (parseItems fuel depth r2).map (fun p => (v :: p.1, p.2))
        else if d = 93 then some ([v], r2)
        else none
end

/-- The first pass and the walk of `json.Unmarshal` together: the whole input
must be one JSON value with white space around it. `none` is `SyntaxError`. -/
def parseJSON (raw : List Nat) : Option JValue :=
  match parseValue (raw.length + 1) 0 raw with
  | none => none
  | some (v, rest) => if skipSpace rest = [] then some v else none

/-! ## `pkg/pdu/pdu.go` -/

/-- The constant `TYPE_DATA`. -/
def TYPE_DATA : Nat := 0
/-- The constant `TYPE_JOIN`. -/
def TYPE_JOIN : Nat := 1
/-- The constant `TYPE_LEAVE`. -/
def TYPE_LEAVE : Nat := 2
/-- The constant `TYPE_ACK`. -/
def TYPE_ACK : Nat := 3
/-- The constant `MAX_PDU_SIZE`. -/
def MAX_PDU_SIZE : Nat := 1024

/-- The struct `PDU`: `Mtype` is a `uint8`, `Len` a `uint32`, `Data` a byte
slice, `none` standing for the nil slice. -/
structure PDU where
  Mtype : Nat
  Len : Nat
  Data : Option (List Nat)
  deriving DecidableEq, Repr

/-- The values of the Go type `PDU`: every field within the range of its type. -/
def PDU.Valid (m : PDU) : Prop :=
  m.Mtype < 256 ∧ m.Len < 2 ^ 32 ∧ ∀ d ∈ m.Data, ∀ b ∈ d, b < 256

/-- The errors `json.Marshal` and `json.Unmarshal` can return. -/
inductive JsonError where
  | syntaxError : JsonError
  | unmarshalTypeError : JsonError
  | corruptInputError : JsonError
  | unsupportedValueError : JsonError
  deriving DecidableEq, Repr

/-- The function `MakePduBuffer`: `make([]byte, MAX_PDU_SIZE)`. -/
def MakePduBuffer : List Nat := List.replicate MAX_PDU_SIZE 0

/-- The function `NewPDU`: `Len` is `uint32(len(data))`. -/
def NewPDU (mtype : Nat) (data : Option (List Nat)) : PDU :=
  { Mtype := mtype, Len := (data.getD []).length % 2 ^ 32, Data := data }

/-- The conversion `string(pdu.Data)`: the nil slice gives the empty string. -/
def dataString (m : PDU) : List Nat := m.Data.getD []

/-- The text of the field `data` in the output of `json.Marshal`: `null` for the
nil slice, else the base64 text between quotes. -/
def marshalBytes : Option (List Nat) → List Nat
  | none => [110, 117, 108, 108]                       -- null
  | some d => 34 :: (b64Encode d ++ [34])

/-- The call `json.Marshal(pdu)` for the struct `PDU` with its field tags
`mtype`, `len` and `data`; no value of the struct makes it fail. -/
def jsonMarshal (m : PDU) : List Nat × Option JsonError :=
  ([123, 34, 109, 116, 121, 112, 101, 34, 58]          -- {"mtype":
      ++ formatUint m.Mtype
      ++ [44, 34, 108, 101, 110, 34, 58]               -- ,"len":
      ++ formatUint m.Len
      ++ [44, 34, 100, 97, 116, 97, 34, 58]            -- ,"data":
      ++ marshalBytes m.Data
      ++ [125],                                        -- }
    none)

/-- The method `PduToBytes`: the bytes and the error of `json.Marshal(pdu)`. -/
def PduToBytes (m : PDU) : List Nat × Option JsonError := jsonMarshal m

/-- The name of a key or field with its ASCII letters in upper case: the decoder
matches a key with a field name exactly or, failing that, without regard to case. -/
def foldName (s : List Nat) : List Nat :=
  s.map (fun c => if 97 ≤ c ∧ c ≤ 122 then c - 32 else c)

/-- Stores a JSON value in an unsigned integer field of `bits` bits
(`literalStore`): `null` leaves the field, a number must be the text of an
integer in range, anything else is an `UnmarshalTypeError` and leaves the field. -/
def storeUint (bits : Nat) (old : Nat) : JValue → Nat × Option JsonError
  | JValue.null => (old, none)
  | JValue.number text =>
    match parseUint text with
    | none => (old, some JsonError.unmarshalTypeError)
    | some n => if n < 2 ^ bits then (n, none) else (old, some JsonError.unmarshalTypeError)
  | _ => (old, some JsonError.unmarshalTypeError)

/-- Stores the items of a JSON array in a byte slice: item `i` is stored in
element `i`, which keeps its former value (0 past the former length) when the
item is not a byte. The first error is kept. -/
def storeItems : List JValue → List Nat → List Nat × Option JsonError
  | [], _ => ([], none)
  | v :: vs, old =>
    ((storeUint 8 (old.headD 0) v).1 :: (storeItems vs old.tail).1,
      (storeUint 8 (old.headD 0) v).2 <|> (storeItems vs old.tail).2)

/-- Stores a JSON value in a field of type `[]byte`: `null` gives the nil slice,
a string is decoded from base64, an array is stored item by item. -/
def storeBytes (old : Option (List Nat)) : JValue → Option (List Nat) × Option JsonError
  | JValue.null => (none, none)
  | JValue.string s =>
    match b64Decode s with
    | none => (old, some JsonError.corruptInputError)
    | some d => (some d, none)
  | JValue.array items => (some (storeItems items (old.getD [])).1, (storeItems items (old.getD [])).2)
  | _ => (old, some JsonError.unmarshalTypeError)

/-- Stores one member of the JSON object in the field of `PDU` its key names; a
member with another key is skipped. The first error is kept. -/
def storeMember (acc : PDU × Option JsonError) (member : List Nat × JValue) :
    PDU × Option JsonError :=
  if foldName member.1 = foldName [109, 116, 121, 112, 101] then          -- mtype
    ({ acc.1 with Mtype := (storeUint 8 acc.1.Mtype member.2).1 },
      acc.2 <|> (storeUint 8 acc.1.Mtype member.2).2)
  else if foldName member.1 = foldName [108, 101, 110] then               -- len
    ({ acc.1 with Len := (storeUint 32 acc.1.Len member.2).1 },
      acc.2 <|> (storeUint 32 acc.1.Len member.2).2)
  else if foldName member.1 = foldName [100, 97, 116, 97] then            -- data
    ({ acc.1 with Data := (storeBytes acc.1.Data member.2).1 },
      acc.2 <|> (storeBytes acc.1.Data member.2).2)
  else acc

/-- The call `json.Unmarshal(raw, pdu)`: a syntax error leaves `pdu` untouched;
an object is stored member by member, `null` stores nothing, any other value is
an `UnmarshalTypeError`. -/
def jsonUnmarshal (raw : List Nat) (pdu : PDU) : PDU × Option JsonError :=
  match parseJSON raw with
  | none => (pdu, some JsonError.syntaxError)
  | some (JValue.object members) => members.foldl storeMember (pdu, none)
  | some JValue.null => (pdu, none)
  | some _ => (pdu, some JsonError.unmarshalTypeError)

/-- The function `PduFromBytes`: unmarshals into a fresh `PDU{}` and returns it
together with the error. -/
def PduFromBytes (raw : List Nat) : PDU × Option JsonError :=
  jsonUnmarshal raw { Mtype := 0, Len := 0, Data := none }

/-! ## Predicates used in the statements about the codec -/

/-- A byte that a JSON string literal holds as itself: no control byte, no
quote, no backslash. -/
def plainByte (c : Nat) : Prop := 32 ≤ c ∧ c ≠ 34 ∧ c ≠ 92

/-- The characters of a base64 text: those of the alphabet and the padding. -/
def b64Byte (c : Nat) : Prop := plainByte c ∧ c ≠ 13 ∧ c ≠ 10

/-- The JSON value of the field `data` that `json.Marshal` writes for a slice. -/
def dataValue : Option (List Nat) → JValue
  | none => JValue.null
  | some d => JValue.string (b64Encode d)

/-- The members of the object that `json.Marshal` writes for a `PDU`. -/
def marshalMembers (m : PDU) : List (List Nat × JValue) :=
  [([109, 116, 121, 112, 101], JValue.number (formatUint m.Mtype)),
   ([108, 101, 110], JValue.number (formatUint m.Len)),
   ([100, 97, 116, 97], dataValue m.Data)]

/-- The output of `json.Marshal` for a `PDU` up to the colon after the key
`data`. -/
def marshalHead (m : PDU) : List Nat :=
  [123, 34, 109, 116, 121, 112, 101, 34, 58] ++ formatUint m.Mtype
    ++ [44, 34, 108, 101, 110, 34, 58] ++ formatUint m.Len
    ++ [44, 34, 100, 97, 116, 97, 34, 58]

/-- A `PDU` with 768 bytes of data: its serialization has more than 1024 bytes. -/
def largePDU : PDU := { Mtype := 0, Len := 768, Data := some (List.replicate 768 97) }

/-! ## Go library functions used by the source: `strings` -/

/-- The function `strings.HasPrefix(s, pre)`. -/
def HasPrefix : List Nat → List Nat → Bool
  | _, [] => true
  | [], _ :: _ => false
  | c :: cs, p :: ps => decide (c = p) && HasPrefix cs ps

/-- The function `strings.Index(s, sep)`: the index of the first occurrence of
`sep` in `s`, `none` standing for -1. -/
def Index : List Nat → List Nat → Option Nat
  | [], sep => if sep = [] then some 0 else none
  | c :: cs, sep => if HasPrefix (c :: cs) sep then some 0 else (Index cs sep).map (· + 1)

/-- The loop of `genSplit`: at most `k` cuts at the first occurrences of `sep`,
the rest of the string is the last part. -/
def genSplit : Nat → List Nat → List Nat → List (List Nat)
  | 0, s, _ => [s]
  | k + 1, s, sep =>
    match Index s sep with
    | none => [s]
    | some i => s.take i :: genSplit k (s.drop (i + sep.length)) sep

/-- The function `strings.SplitN(s, sep, n)` for a separator that is not empty
and `n ≥ 0`: at most `n` parts, and not more than `len(s) + 1`. -/
def SplitN (s sep : List Nat) (n : Nat) : List (List Nat) :=
  if n = 0 then [] else genSplit (min n (s.length + 1) - 1) s sep

/-- The function `strings.Join(elems, sep)`. -/
def Join : List (List Nat) → List Nat → List Nat
  | [], _ => []
  | [a], _ => a
  | a :: b :: rest, sep => a ++ sep ++ Join (b :: rest) sep

/-! ## `pkg/server/server.go` -/

/-- The separator `": "` of the payload convention. -/
def colonSpace : List Nat := [58, 32]
/-- The control text `"/list"`. -/
def listCommand : List Nat := [47, 108, 105, 115, 116]
/-- The text `" left the chat"` of the leave message. -/
def leftTheChat : List Nat := [32, 108, 101, 102, 116, 32, 116, 104, 101, 32, 99, 104, 97, 116]
/-- The text `"Active users: "` in front of the user list. -/
def activeUsersLabel : List Nat := [65, 99, 116, 105, 118, 101, 32, 117, 115, 101, 114, 115, 58, 32]
/-- The separator `", "` of the user list. -/
def commaSpace : List Nat := [44, 32]
/-- The welcome message: "Welcome to Student Collaboration Chat Protocol
Application! All the students are requested to maintain decorum in the chat
room." -/
def welcomeMessage : List Nat :=
  [87, 101, 108, 99, 111, 109, 101, 32, 116, 111, 32, 83, 116, 117, 100, 101, 110, 116, 32,
   67, 111, 108, 108, 97, 98, 111, 114, 97, 116, 105, 111, 110, 32, 67, 104, 97, 116, 32,
   80, 114, 111, 116, 111, 99, 111, 108, 32, 65, 112, 112, 108, 105, 99, 97, 116, 105, 111,
   110, 33, 32, 65, 108, 108, 32, 116, 104, 101, 32, 115, 116, 117, 100, 101, 110, 116, 115,
   32, 97, 114, 101, 32, 114, 101, 113, 117, 101, 115, 116, 101, 100, 32, 116, 111, 32, 109,
   97, 105, 110, 116, 97, 105, 110, 32, 100, 101, 99, 111, 114, 117, 109, 32, 105, 110, 32,
   116, 104, 101, 32, 99, 104, 97, 116, 32, 114, 111, 111, 109, 46]

/-- An entry of the map `streams`: a `quic.Stream`, given by a number that
identifies it, and the username stored for it. -/
abbrev StreamEntry : Type := Sigma (fun _ : Nat => List Nat)

/-- The fields `streams` and `usernames` of the struct `Server`: two Go maps, a
key occurs at most once. The mutex and the configuration are left out. -/
structure Server where
  streams : AList (fun _ : Nat => List Nat)
  usernames : AList (fun _ : List Nat => List Nat)

/-- The value `m[k]` of a Go map of strings: the empty string for a missing key. -/
def mapGet {κ : Type} [DecidableEq κ] (m : AList (fun _ : κ => List Nat)) (k : κ) : List Nat :=
  (m.lookup k).getD []

/-- The assignment `m[k] = v` of a Go map of strings. -/
def mapSet {κ : Type} [DecidableEq κ] (m : AList (fun _ : κ => List Nat)) (k : κ) (v : List Nat) :
    AList (fun _ : κ => List Nat) :=
  m.insert k v

/-- The statement `delete(m, k)` of a Go map of strings. -/
def mapDelete {κ : Type} [DecidableEq κ] (m : AList (fun _ : κ => List Nat)) (k : κ) :
    AList (fun _ : κ => List Nat) :=
  m.erase k

/-- The values of a Go map of strings, one for each key. -/
def mapValues {κ : Type} (m : AList (fun _ : κ => List Nat)) : List (List Nat) :=
  m.entries.map (fun e => e.2)

/-- What a handler does to the streams: a `Write` of bytes with its outcome
(`true` when it returns no error), or a `Close`. -/
inductive Event where
  | write (stream : Nat) (bytes : List Nat) (ok : Bool) : Event
  | close (stream : Nat) : Event
  deriving DecidableEq, Repr

/-- What the code does not decide: the order in which a `range` over the map
`streams` visits its entries (any order, each entry once), and whether a
`Write` on a stream succeeds. -/
structure Env where
  rangeOrder : List StreamEntry → List StreamEntry
  rangePerm : ∀ l, List.Perm (rangeOrder l) l
  writeOk : Nat → List Nat → Bool

/-- An environment in which a `range` visits the entries in the order they are
stored in and every `Write` succeeds. -/
def Env.inOrder : Env :=
  { rangeOrder := fun l => l, rangePerm := fun l => List.Perm.refl l, writeOk := fun _ _ => true }

/-- The streams written to by a list of events, in order. -/
def writeTargets : List Event → List Nat
  | [] => []
  | Event.write stream _ _ :: es => stream :: writeTargets es
  | Event.close _ :: es => writeTargets es

/-- The errors of `sendPDU`. -/
inductive SendError where
  | encode : SendError
  | write : SendError
  deriving DecidableEq, Repr

/-- The method `sendPDU`: the events and the error it returns. -/
def sendPDU (env : Env) (stream : Nat) (pdu : PDU) : List Event × Option SendError :=
  if (PduToBytes pdu).2 ≠ none then ([], some SendError.encode)
  else if env.writeOk stream (PduToBytes pdu).1 then
    ([Event.write stream (PduToBytes pdu).1 true], none)
  else ([Event.write stream (PduToBytes pdu).1 false], some SendError.write)

/-- The registration of an accepted stream in `sessionHandler`:
`s.streams[stream] = ""` under the mutex. -/
def register (s : Server) (stream : Nat) : Server :=
  { s with streams := mapSet s.streams stream [] }

/-- The body of the loop of `sessionHandler` for one accepted stream: the
stream is registered and the welcome message is sent to it; the protocol handler
of the stream is started after that. -/
def sessionHandler (env : Env) (s : Server) (stream : Nat) : Server × List Event :=
  (register s stream, (sendPDU env stream (NewPDU TYPE_DATA (some welcomeMessage))).1)

/-- The identity update in `protocolHandler`: `s.streams[stream] = username`
and `s.usernames[addr] = username` under the mutex. -/
def updateIdentity (s : Server) (stream : Nat) (addr username : List Nat) : Server :=
  { streams := mapSet s.streams stream username, usernames := mapSet s.usernames addr username }

/-- The removal in the deferred function of `protocolHandler`: the username of
the stream is read, then both entries are deleted, under the mutex. -/
def unregister (s : Server) (stream : Nat) (addr : List Nat) : Server × List Nat :=
  ({ streams := mapDelete s.streams stream, usernames := mapDelete s.usernames addr },
    mapGet s.streams stream)

/-- The method `broadcast`: the PDU is serialized once and written to every
stream of the map in the order of the `range`; the outcome of a write does not
stop the loop. -/
def broadcast (env : Env) (s : Server) (data : PDU) : Server × List Event :=
  if (PduToBytes data).2 ≠ none then (s, [])
  else
    (s, (env.rangeOrder s.streams.entries).map
      (fun e => Event.write e.1 (PduToBytes data).1 (env.writeOk e.1 (PduToBytes data).1)))

/-- The slice `userList` built by the loop of `listActiveUsers`: the usernames
that are not empty, in the order of the `range`. -/
def userList (env : Env) (s : Server) : List (List Nat) :=
  ((env.rangeOrder s.streams.entries).map (fun e => e.2)).filter (fun u => decide (u ≠ []))

/-- The response of `listActiveUsers`: `"Active users: "` and the user list
joined with `", "`, as a PDU of type `TYPE_DATA`. -/
def listResponse (env : Env) (s : Server) : PDU :=
  NewPDU TYPE_DATA (some (activeUsersLabel ++ Join (userList env s) commaSpace))

/-- The method `listActiveUsers`: the response is written to the requesting
stream only. -/
def listActiveUsers (env : Env) (s : Server) (stream : Nat) : Server × List Event :=
  if (PduToBytes (listResponse env s)).2 ≠ none then (s, [])
  else
    (s, [Event.write stream (PduToBytes (listResponse env s)).1
      (env.writeOk stream (PduToBytes (listResponse env s)).1)])

/-- The body of the loop of `protocolHandler` after a PDU is decoded: the
payload is split at the first `": "`; with two parts the identity is updated,
and a message `/list` is answered with the user list and not broadcast; in
every other case the received PDU is broadcast. -/
def handlePDU (env : Env) (s : Server) (stream : Nat) (addr : List Nat) (data : PDU) :
    Server × List Event :=
  match SplitN (dataString data) colonSpace 2 with
  | [username, message] =>
    if message = listCommand then listActiveUsers env (updateIdentity s stream addr username) stream
    else broadcast env (updateIdentity s stream addr username) data
  | _ => broadcast env s data

/-- The deferred function of `protocolHandler`: the stream is unregistered and
closed, and the leave message with the username read at the removal is
broadcast. -/
def handlerExit (env : Env) (s : Server) (stream : Nat) (addr : List Nat) : Server × List Event :=
  ((broadcast env (unregister s stream addr).1
      (NewPDU TYPE_LEAVE (some ((unregister s stream addr).2 ++ leftTheChat)))).1,
    Event.close stream ::
      (broadcast env (unregister s stream addr).1
        (NewPDU TYPE_LEAVE (some ((unregister s stream addr).2 ++ leftTheChat)))).2)

/-- The result of one `stream.Read(buffer)`: an error, or the bytes read. -/
inductive ReadResult where
  | error : ReadResult
  | bytes (raw : List Nat) : ReadResult
  deriving DecidableEq, Repr

/-- The method `protocolHandler` along the results of its reads, each with the
environment of that turn of the loop: a read takes at most the size of the
buffer; a read error or a decode error ends the loop and runs the deferred
function; a decoded PDU is handled and the loop goes on. When the results are
used up the handler waits in `Read`, and the state reached so far is returned. -/
def protocolHandler (stream : Nat) (addr : List Nat) :
    List (Env × ReadResult) → Server → Server × List Event
  | [], s => (s, [])
  | (env, ReadResult.error) :: _, s => handlerExit env s stream addr
  | (env, ReadResult.bytes raw) :: rest, s =>
    if (PduFromBytes (raw.take MakePduBuffer.length)).2 ≠ none then handlerExit env s stream addr
    else
      ((protocolHandler stream addr rest
          (handlePDU env s stream addr (PduFromBytes (raw.take MakePduBuffer.length)).1).1).1,
        (handlePDU env s stream addr (PduFromBytes (raw.take MakePduBuffer.length)).1).2
          ++ (protocolHandler stream addr rest
            (handlePDU env s stream addr (PduFromBytes (raw.take MakePduBuffer.length)).1).1).2)

/-! ## `pkg/client/client.go` -/

/-- The payload of the PDU that `protocolHandler` of the client sends for a
line: `fmt.Sprintf("%s: %s", c.cfg.Username, message)`. -/
def clientPayload (username message : List Nat) : List Nat :=
  username ++ [58, 32] ++ message

/-- A registry with three streams: stream 1 of `alice`, stream 2 with no
username yet, stream 3 of `bob`. -/
def sampleServer : Server :=
  { streams := mapSet (mapSet (mapSet ∅ 1 [97, 108, 105, 99, 101]) 2 []) 3 [98, 111, 98],
    usernames := ∅ }

/-- A PDU of kind `TYPE_JOIN` whose payload is `"bob: hi"`. -/
def joinPDU : PDU := NewPDU TYPE_JOIN (some [98, 111, 98, 58, 32, 104, 105])

/-- A PDU of kind `TYPE_DATA` whose payload is `"carol: /list"`. -/
def listPDU : PDU :=
  NewPDU TYPE_DATA (some [99, 97, 114, 111, 108, 58, 32, 47, 108, 105, 115, 116])

/-- The read results of reads that return bytes, each with the environment of
its turn of the loop. -/
def bytesReads (pre : List (Env × List Nat)) : List (Env × ReadResult) :=
  pre.map (fun p => (p.1, ReadResult.bytes p.2))

/-- The registry and the events after a sequence of PDUs is handled one after
the other on a stream, each read cut at the size of the buffer and decoded: what
the loop of `protocolHandler` has done when every one of these reads decodes. -/
def handleReads (stream : Nat) (addr : List Nat) :
    List (Env × List Nat) → Server → Server × List Event
  | [], s => (s, [])
  | (env, raw) :: rest, s =>
    ((handleReads stream addr rest
        (handlePDU env s stream addr (PduFromBytes (raw.take MakePduBuffer.length)).1).1).1,
      (handlePDU env s stream addr (PduFromBytes (raw.take MakePduBuffer.length)).1).2
        ++ (handleReads stream addr rest
          (handlePDU env s stream addr (PduFromBytes (raw.take MakePduBuffer.length)).1).1).2)

/-! ## Theorems -/

/-! ## Facts about the decimal text of a number -/

theorem formatBits_append (fuel : Nat) : ∀ (n : Nat) (acc : List Nat),
    formatBits fuel n acc = formatBits fuel n [] ++ acc := by
  induction fuel with
  | zero => intro n acc; simp [formatBits]
  | succ f ih =>
    intro n acc
    unfold formatBits
    split
    · simp
    · rw [ih (n / 10) ((48 + n % 10) :: acc), ih (n / 10) [48 + n % 10]]
      simp

theorem formatBits_fuel (fuel : Nat) : ∀ (n fuel2 : Nat) (acc : List Nat),
    n < fuel → n < fuel2 → formatBits fuel n acc = formatBits fuel2 n acc := by
  induction fuel with
  | zero => intro n fuel2 acc h; omega
  | succ f ih =>
    intro n fuel2 acc h1 h2
    obtain ⟨g, rfl⟩ : ∃ g, fuel2 = g + 1 := ⟨fuel2 - 1, by omega⟩
    unfold formatBits
    split
    · rfl
    · exact ih (n / 10) g _ (by omega) (by omega)

theorem formatUint_eq (n : Nat) :
    formatUint n = if n < 10 then [48 + n] else formatUint (n / 10) ++ [48 + n % 10] := by
  unfold formatUint
  conv => lhs; unfold formatBits
  by_cases h : n < 10
  · have h0 : n / 10 = 0 := by omega
    have h1 : n % 10 = n := by omega
    simp [h, h0, h1]
  · have h0 : ¬ n / 10 = 0 := by omega
    simp only [h0, h, if_false]
    rw [formatBits_append, formatBits_fuel n (n / 10) (n / 10 + 1) [] (by omega) (by omega)]

theorem formatUint_digits (n : Nat) : ∀ c ∈ formatUint n, isDigit c = true := by
  induction n using Nat.strong_induction_on with
  | _ n ih =>
    rw [formatUint_eq]
    by_cases h : n < 10
    · simp only [h, if_true, List.mem_singleton]
      intro c hc
      subst hc
      simp [isDigit]; omega
    · simp only [h, if_false, List.mem_append, List.mem_singleton]
      intro c hc
      rcases hc with hc | hc
      · exact ih (n / 10) (by omega) c hc
      · subst hc
        simp [isDigit]; omega

/-- The text of a number starts with a digit; the digit is `0` only for the
text `0` itself. -/
theorem formatUint_head (n : Nat) :
    ∃ d ds, formatUint n = d :: ds ∧ isDigit d = true ∧ (d = 48 → ds = []) := by
  induction n using Nat.strong_induction_on with
  | _ n ih =>
    rw [formatUint_eq]
    by_cases h : n < 10
    · exact ⟨48 + n, [], by simp [h], by simp [isDigit]; omega, fun _ => rfl⟩
    · obtain ⟨d, ds, he, hd, hz⟩ := ih (n / 10) (by omega)
      refine ⟨d, ds ++ [48 + n % 10], by simp [h, he], hd, ?_⟩
      intro h48
      exfalso
      have hnil := hz h48
      subst hnil
      subst h48
      have h2 := formatUint_eq (n / 10)
      rw [he] at h2
      by_cases h3 : n / 10 < 10
      · simp [h3] at h2; omega
      · simp only [h3, if_false] at h2
        have := congrArg List.length h2
        simp at this
        obtain ⟨e, es, he2, _, _⟩ := ih (n / 10 / 10) (by omega)
        rw [he2] at this
        simp at this

theorem parseUintLoop_formatUint (n : Nat) : ∀ (a : Nat) (rest : List Nat),
    a * 10 ^ (formatUint n).length + n < 2 ^ 64 →
    parseUintLoop (formatUint n ++ rest) a
      = parseUintLoop rest (a * 10 ^ (formatUint n).length + n) := by
  induction n using Nat.strong_induction_on with
  | _ n ih =>
    intro a rest hb
    rw [formatUint_eq] at hb ⊢
    by_cases h : n < 10
    · simp only [h, if_true, List.length_singleton, pow_one, List.singleton_append] at hb ⊢
      have hd : isDigit (48 + n) = true := by simp [isDigit]; omega
      have hv : a * 10 + (48 + n - 48) = a * 10 + n := by omega
      simp only [parseUintLoop, hd, if_true, hv, hb]
    · simp only [h, if_false, List.length_append, List.length_singleton, List.append_assoc,
        List.singleton_append] at hb ⊢
      have hp : a * 10 ^ ((formatUint (n / 10)).length + 1)
          = a * 10 ^ (formatUint (n / 10)).length * 10 := by ring
      rw [hp] at hb ⊢
      have hb1 : a * 10 ^ (formatUint (n / 10)).length + n / 10 < 2 ^ 64 := by omega
      rw [ih (n / 10) (by omega) a _ hb1]
      have hd : isDigit (48 + n % 10) = true := by simp [isDigit]; omega
      have hv : (a * 10 ^ (formatUint (n / 10)).length + n / 10) * 10 + (48 + n % 10 - 48)
          = a * 10 ^ (formatUint (n / 10)).length * 10 + n := by omega
      simp only [parseUintLoop, hd, if_true, hv, hb]

/-- Reading back the decimal text of a number below `2^64` gives the number. -/
theorem parseUint_formatUint (n : Nat) (h : n < 2 ^ 64) : parseUint (formatUint n) = some n := by
  obtain ⟨d, ds, he, _, _⟩ := formatUint_head n
  have h1 := parseUintLoop_formatUint n 0 [] (by simpa using h)
  simp only [List.append_nil, zero_mul, zero_add] at h1
  unfold parseUint
  rw [he] at h1 ⊢
  simpa [parseUintLoop] using h1

/-! ## Facts about base64 -/

theorem b64Value_b64Char : ∀ i, i < 64 → b64Value (b64Char i) = some i := by decide

theorem b64Char_facts : ∀ i, i < 64 →
    32 ≤ b64Char i ∧ b64Char i ≠ 34 ∧ b64Char i ≠ 92 ∧ b64Char i ≠ 61 ∧ b64Char i ≠ 13
      ∧ b64Char i ≠ 10 := by decide

theorem b64Char_ne_pad (i : Nat) (h : i < 64) : b64Char i ≠ 61 := (b64Char_facts i h).2.2.2.1

theorem b64Byte_b64Char (i : Nat) (h : i < 64) : b64Byte (b64Char i) := by
  have := b64Char_facts i h
  exact ⟨⟨this.1, this.2.1, this.2.2.1⟩, this.2.2.2.2.1, this.2.2.2.2.2⟩

theorem b64Byte_pad : b64Byte 61 := by unfold b64Byte plainByte; decide

theorem b64Encode_bytes (d : List Nat) (hd : ∀ b ∈ d, b < 256) :
    ∀ c ∈ b64Encode d, b64Byte c := by
  induction d using b64Encode.induct with
  | case1 => simp [b64Encode]
  | case2 a =>
    have ha : a < 256 := hd a (by simp)
    intro c hc
    simp only [b64Encode, List.mem_cons, List.mem_singleton, List.not_mem_nil, or_false] at hc
    rcases hc with rfl | rfl | rfl | rfl
    · exact b64Byte_b64Char _ (by omega)
    · exact b64Byte_b64Char _ (by omega)
    · exact b64Byte_pad
    · exact b64Byte_pad
  | case3 a b =>
    have ha : a < 256 := hd a (by simp)
    have hb : b < 256 := hd b (by simp)
    intro c hc
    simp only [b64Encode, List.mem_cons, List.mem_singleton, List.not_mem_nil, or_false] at hc
    rcases hc with rfl | rfl | rfl | rfl
    · exact b64Byte_b64Char _ (by omega)
    · exact b64Byte_b64Char _ (by omega)
    · exact b64Byte_b64Char _ (by omega)
    · exact b64Byte_pad
  | case4 a b c rest ih =>
    have ha : a < 256 := hd a (by simp)
    have hb : b < 256 := hd b (by simp)
    have hc : c < 256 := hd c (by simp)
    intro x hx
    simp only [b64Encode, List.mem_cons] at hx
    rcases hx with rfl | rfl | rfl | rfl | hx
    · exact b64Byte_b64Char _ (by omega)
    · exact b64Byte_b64Char _ (by omega)
    · exact b64Byte_b64Char _ (by omega)
    · exact b64Byte_b64Char _ (by omega)
    · exact ih (fun y hy => hd y (by simp [hy])) x hx

theorem b64DecodeQuanta_b64Encode (d : List Nat) (hd : ∀ b ∈ d, b < 256) :
    b64DecodeQuanta (b64Encode d) = some d := by
  induction d using b64Encode.induct with
  | case1 => simp [b64Encode, b64DecodeQuanta]
  | case2 a =>
    have ha : a < 256 := hd a (by simp)
    have h1 := b64Value_b64Char (a / 4) (by omega)
    have h2 := b64Value_b64Char (a % 4 * 16) (by omega)
    simp only [b64Encode, b64DecodeQuanta, h1, h2, if_true, and_self, Option.some.injEq,
      List.cons.injEq, and_true]
    omega
  | case3 a b =>
    have ha : a < 256 := hd a (by simp)
    have hb : b < 256 := hd b (by simp)
    have h1 := b64Value_b64Char (a / 4) (by omega)
    have h2 := b64Value_b64Char (a % 4 * 16 + b / 16) (by omega)
    have h3 := b64Value_b64Char (b % 16 * 4) (by omega)
    have n3 := b64Char_ne_pad (b % 16 * 4) (by omega)
    simp only [b64Encode, b64DecodeQuanta, h1, h2, h3, n3, if_true, if_false, Option.some.injEq,
      List.cons.injEq, and_true]
    omega
  | case4 a b c rest ih =>
    have ha : a < 256 := hd a (by simp)
    have hb : b < 256 := hd b (by simp)
    have hc : c < 256 := hd c (by simp)
    have h1 := b64Value_b64Char (a / 4) (by omega)
    have h2 := b64Value_b64Char (a % 4 * 16 + b / 16) (by omega)
    have h3 := b64Value_b64Char (b % 16 * 4 + c / 64) (by omega)
    have h4 := b64Value_b64Char (c % 64) (by omega)
    have n3 := b64Char_ne_pad (b % 16 * 4 + c / 64) (by omega)
    have n4 := b64Char_ne_pad (c % 64) (by omega)
    have ih' := ih (fun y hy => hd y (by simp [hy]))
    simp only [b64Encode, b64DecodeQuanta, h1, h2, h3, h4, n3, n4, if_false, ih', Option.map_some',
      Option.some.injEq, List.cons.injEq, and_true]
    omega

/-- Decoding the base64 text of a byte sequence gives the sequence back. -/
theorem b64Decode_b64Encode (d : List Nat) (hd : ∀ b ∈ d, b < 256) :
    b64Decode (b64Encode d) = some d := by
  unfold b64Decode
  have hf : (b64Encode d).filter (fun c => !(c = 13 || c = 10)) = b64Encode d := by
    rw [List.filter_eq_self]
    intro c hc
    have := b64Encode_bytes d hd c hc
    simp [this.2.1, this.2.2]
  rw [hf]
  exact b64DecodeQuanta_b64Encode d hd

/-! ## Facts about the JSON scanner on the output of `json.Marshal` -/

theorem scanString_quote (rest : List Nat) : scanString (34 :: rest) = some ([], rest) := by
  rw [scanString.eq_def]; simp

theorem scanString_cons_plain (c : Nat) (cs : List Nat) (hc : plainByte c) :
    scanString (c :: cs) = (scanString cs).map (fun p => (c :: p.1, p.2)) := by
  have h1 : ¬ c = 34 := hc.2.1
  have h2 : ¬ c = 92 := hc.2.2
  have h3 : ¬ c < 32 := by have := hc.1; omega
  rw [scanString.eq_def]
  simp only [h1, h2, h3, if_false]

theorem scanString_plain (s : List Nat) (rest : List Nat) (hs : ∀ c ∈ s, plainByte c) :
    scanString (s ++ 34 :: rest) = some (s, rest) := by
  induction s with
  | nil => exact scanString_quote rest
  | cons c cs ih =>
    have ih' := ih (fun x hx => hs x (by simp [hx]))
    rw [List.cons_append, scanString_cons_plain c _ (hs c (by simp)), ih']
    rfl

theorem scanString_cut (s : List Nat) (hs : ∀ c ∈ s, plainByte c) : scanString s = none := by
  induction s with
  | nil => rw [scanString.eq_def]
  | cons c cs ih =>
    have ih' := ih (fun x hx => hs x (by simp [hx]))
    rw [scanString_cons_plain c _ (hs c (by simp)), ih']
    rfl

theorem spanDigits_append (ds : List Nat) (c : Nat) (rest : List Nat)
    (hds : ∀ d ∈ ds, isDigit d = true) (hc : isDigit c = false) :
    spanDigits (ds ++ c :: rest) = (ds, c :: rest) := by
  induction ds with
  | nil => simp [spanDigits, hc]
  | cons d ds ih =>
    have hd : isDigit d = true := hds d (by simp)
    have ih' := ih (fun x hx => hds x (by simp [hx]))
    simp [spanDigits, hd, ih']

theorem scanNumber_formatUint (n : Nat) (rest : List Nat) :
    scanNumber (formatUint n ++ 44 :: rest) = some (formatUint n, 44 :: rest) := by
  obtain ⟨d, ds, he, hd, hz⟩ := formatUint_head n
  have hall := formatUint_digits n
  rw [he] at hall ⊢
  have hd45 : ¬ d = 45 := by
    intro h; subst h; simp [isDigit] at hd
  have hds : ∀ x ∈ ds, isDigit x = true := fun x hx => hall x (by simp [hx])
  have hsp := spanDigits_append ds 44 rest hds (by decide)
  by_cases h48 : d = 48
  · have := hz h48
    subst this
    subst h48
    simp [scanNumber, scanInt, scanFrac, scanExp]
  · simp [scanNumber, scanInt, scanFrac, scanExp, hd45, h48, hd, hsp]

theorem skipSpace_of_not_space (c : Nat) (cs : List Nat) (h : isSpace c = false) :
    skipSpace (c :: cs) = c :: cs := by
  simp [skipSpace, h]

theorem isSpace_of_digit (c : Nat) (h : isDigit c = true) : isSpace c = false := by
  simp only [isDigit, Bool.and_eq_true, decide_eq_true_eq] at h
  simp only [isSpace, Bool.or_eq_false_iff, decide_eq_false_iff_not]
  omega

/-- A JSON value that is the decimal text of a number, followed by a comma. -/
theorem parseValue_formatUint (fuel depth n : Nat) (rest : List Nat) :
    parseValue (fuel + 1) depth (formatUint n ++ 44 :: rest)
      = some (JValue.number (formatUint n), 44 :: rest) := by
  have hnum := scanNumber_formatUint n rest
  obtain ⟨d, ds, he, hd, _⟩ := formatUint_head n
  rw [he] at hnum ⊢
  have hsp := isSpace_of_digit d hd
  have hd' := hd
  simp only [isDigit, Bool.and_eq_true, decide_eq_true_eq] at hd'
  have e1 : ¬ d = 123 := by omega
  have e2 : ¬ d = 91 := by omega
  have e3 : ¬ d = 34 := by omega
  have e4 : ¬ d = 116 := by omega
  have e5 : ¬ d = 102 := by omega
  have e6 : ¬ d = 110 := by omega
  simp only [List.cons_append] at hnum ⊢
  simp only [parseValue, skipSpace, hsp, e1, e2, e3, e4, e5, e6, if_false, hd, or_true, if_true,
    hnum, Option.map_some', Bool.false_eq_true]

/-- A JSON value that is a string literal of plain bytes. -/
theorem parseValue_string (fuel depth : Nat) (s rest : List Nat) (hs : ∀ c ∈ s, plainByte c) :
    parseValue (fuel + 1) depth (34 :: (s ++ 34 :: rest)) = some (JValue.string s, rest) := by
  have h := scanString_plain s rest hs
  simp [parseValue, skipSpace, isSpace, h]

/-- A string literal of plain bytes that the input ends in the middle of, or
right after, does not parse as a member value followed by anything. -/
theorem parseValue_string_cut (fuel depth : Nat) (s : List Nat) (hs : ∀ c ∈ s, plainByte c) :
    parseValue (fuel + 1) depth (34 :: s) = none := by
  have h := scanString_cut s hs
  simp [parseValue, skipSpace, isSpace, h]

theorem parseValue_null (fuel depth : Nat) (rest : List Nat) :
    parseValue (fuel + 1) depth (110 :: 117 :: 108 :: 108 :: rest) = some (JValue.null, rest) := by
  simp [parseValue, skipSpace, isSpace, expectWord, expect]

theorem parseMembers_comma (fuel depth : Nat) (key vtext r4 : List Nat) (v : JValue)
    (hk : ∀ c ∈ key, plainByte c)
    (hv : parseValue fuel depth vtext = some (v, 44 :: r4)) :
    parseMembers (fuel + 1) depth (34 :: (key ++ 34 :: 58 :: vtext))
      = (parseMembers fuel depth r4).map (fun p => ((key, v) :: p.1, p.2)) := by
  have hs := scanString_plain key (58 :: vtext) hk
  simp [parseMembers, skipSpace, isSpace, expect, hs, hv]

theorem parseMembers_close (fuel depth : Nat) (key vtext r4 : List Nat) (v : JValue)
    (hk : ∀ c ∈ key, plainByte c)
    (hv : parseValue fuel depth vtext = some (v, 125 :: r4)) :
    parseMembers (fuel + 1) depth (34 :: (key ++ 34 :: 58 :: vtext)) = some ([(key, v)], r4) := by
  have hs := scanString_plain key (58 :: vtext) hk
  simp [parseMembers, skipSpace, isSpace, expect, hs, hv]

theorem parseMembers_cut (fuel depth : Nat) (key vtext : List Nat)
    (hk : ∀ c ∈ key, plainByte c)
    (hv : parseValue fuel depth vtext = none) :
    parseMembers (fuel + 1) depth (34 :: (key ++ 34 :: 58 :: vtext)) = none := by
  have hs := scanString_plain key (58 :: vtext) hk
  simp [parseMembers, skipSpace, isSpace, expect, hs, hv]

theorem plain_mtype : ∀ c ∈ [109, 116, 121, 112, 101], plainByte c := by
  unfold plainByte; decide

theorem plain_len : ∀ c ∈ [108, 101, 110], plainByte c := by
  unfold plainByte; decide

theorem plain_data : ∀ c ∈ [100, 97, 116, 97], plainByte c := by
  unfold plainByte; decide

theorem parseValue_marshalBytes (fuel depth : Nat) (data : Option (List Nat)) (rest : List Nat)
    (hd : ∀ d ∈ data, ∀ b ∈ d, b < 256) :
    parseValue (fuel + 1) depth (marshalBytes data ++ rest) = some (dataValue data, rest) := by
  cases data with
  | none => exact parseValue_null fuel depth rest
  | some d =>
    have hp : ∀ c ∈ b64Encode d, plainByte c :=
      fun c hc => (b64Encode_bytes d (hd d rfl) c hc).1
    have := parseValue_string fuel depth (b64Encode d) rest hp
    simpa [marshalBytes, dataValue] using this

theorem parseValue_jsonMarshal (fuel : Nat) (m : PDU) (hd : ∀ d ∈ m.Data, ∀ b ∈ d, b < 256) :
    parseValue (fuel + 5) 0 (jsonMarshal m).1 = some (JValue.object (marshalMembers m), []) := by
  have h3 := parseMembers_close (fuel + 1) 1 [100, 97, 116, 97] (marshalBytes m.Data ++ [125]) []
    (dataValue m.Data) plain_data (parseValue_marshalBytes fuel 1 m.Data [125] hd)
  have h2 := parseMembers_comma (fuel + 2) 1 [108, 101, 110]
    (formatUint m.Len ++ 44 :: 34 :: ([100, 97, 116, 97] ++ 34 :: 58 :: (marshalBytes m.Data ++ [125])))
    _ (JValue.number (formatUint m.Len)) plain_len (parseValue_formatUint (fuel + 1) 1 m.Len _)
  rw [h3] at h2
  have h1 := parseMembers_comma (fuel + 3) 1 [109, 116, 121, 112, 101]
    (formatUint m.Mtype ++ 44 :: 34 :: ([108, 101, 110] ++ 34 :: 58 :: (formatUint m.Len ++ 44 :: 34
      :: ([100, 97, 116, 97] ++ 34 :: 58 :: (marshalBytes m.Data ++ [125])))))
    _ (JValue.number (formatUint m.Mtype)) plain_mtype (parseValue_formatUint (fuel + 2) 1 m.Mtype _)
  rw [h2] at h1
  simp only [List.cons_append, List.nil_append, Option.map_some'] at h1
  simp only [jsonMarshal, List.cons_append, List.nil_append, List.append_assoc]
  rw [parseValue]
  simp only [skipSpace, isSpace, expect, maxNestingDepth]
  simp [h1, marshalMembers, skipSpace, isSpace]

theorem jsonMarshal_length (m : PDU) : 29 ≤ (jsonMarshal m).1.length := by
  obtain ⟨d1, ds1, he1, _, _⟩ := formatUint_head m.Mtype
  obtain ⟨d2, ds2, he2, _, _⟩ := formatUint_head m.Len
  have h3 : 2 ≤ (marshalBytes m.Data).length := by
    cases m.Data <;> simp [marshalBytes]
  simp only [jsonMarshal, List.length_append, List.length_cons, List.length_nil, he1, he2]
  omega

theorem parseJSON_jsonMarshal (m : PDU) (hd : ∀ d ∈ m.Data, ∀ b ∈ d, b < 256) :
    parseJSON (jsonMarshal m).1 = some (JValue.object (marshalMembers m)) := by
  have hl := jsonMarshal_length m
  obtain ⟨f, hf⟩ : ∃ f, (jsonMarshal m).1.length + 1 = f + 5 :=
    ⟨(jsonMarshal m).1.length - 4, by omega⟩
  unfold parseJSON
  rw [hf, parseValue_jsonMarshal f m hd]
  simp [skipSpace]

theorem storeBytes_dataValue (old : Option (List Nat)) (data : Option (List Nat))
    (hd : ∀ d ∈ data, ∀ b ∈ d, b < 256) :
    storeBytes old (dataValue data) = (data, none) := by
  cases data with
  | none => rfl
  | some d => simp [dataValue, storeBytes, b64Decode_b64Encode d (hd d rfl)]

theorem storeUint_formatUint (bits old n : Nat) (hb : bits ≤ 64) (hn : n < 2 ^ bits) :
    storeUint bits old (JValue.number (formatUint n)) = (n, none) := by
  have h64 : n < 2 ^ 64 := lt_of_lt_of_le hn (Nat.pow_le_pow_right (by norm_num) hb)
  simp [storeUint, parseUint_formatUint n h64, hn]

theorem foldl_storeMember_marshal (m p : PDU) (hm : m.Valid) :
    (marshalMembers m).foldl storeMember (p, none) = (m, none) := by
  obtain ⟨h1, h2, h3⟩ := hm
  have k1 : ¬ foldName [108, 101, 110] = foldName [109, 116, 121, 112, 101] := by decide
  have k2 : ¬ foldName [100, 97, 116, 97] = foldName [109, 116, 121, 112, 101] := by decide
  have k3 : ¬ foldName [100, 97, 116, 97] = foldName [108, 101, 110] := by decide
  have s1 := storeUint_formatUint 8 p.Mtype m.Mtype (by norm_num) h1
  have s2 := storeUint_formatUint 32 p.Len m.Len (by norm_num) h2
  have s3 := storeBytes_dataValue p.Data m.Data h3
  simp only [marshalMembers, List.foldl_cons, List.foldl_nil, storeMember, k1, k2, k3, if_true,
    if_false, s1, s2, s3]
  cases m
  rfl

/-- C1. Round trip of the codec: for every `PDU` value (any `Mtype` of a
`uint8`, any `Len` of a `uint32`, whether or not it agrees with the length of
`Data`, any byte sequence or the nil slice as `Data`), `PduToBytes` returns its
bytes with no error, and `PduFromBytes` on those bytes returns no error and a
`PDU` with the same `Mtype`, the same `Len` and the same `Data`. -/
theorem PduFromBytes_PduToBytes (m : PDU) (hm : m.Valid) :
    (PduToBytes m).2 = none ∧ PduFromBytes (PduToBytes m).1 = (m, none) := by
  refine ⟨rfl, ?_⟩
  unfold PduFromBytes PduToBytes jsonUnmarshal
  rw [parseJSON_jsonMarshal m hm.2.2]
  exact foldl_storeMember_marshal m _ hm

/-- C1 at a `PDU` whose `Len` (7) disagrees with the two bytes of its `Data`. -/
theorem PduFromBytes_PduToBytes_witness :
    PDU.Valid { Mtype := 3, Len := 7, Data := some [104, 105] }
    ∧ (PduToBytes { Mtype := 3, Len := 7, Data := some [104, 105] }).2 = none
    ∧ PduFromBytes (PduToBytes { Mtype := 3, Len := 7, Data := some [104, 105] }).1
        = ({ Mtype := 3, Len := 7, Data := some [104, 105] }, none) :=
  ⟨by simp [PDU.Valid], PduFromBytes_PduToBytes _ (by simp [PDU.Valid])⟩

/-! ## A frame cut at the size of the read buffer -/

theorem formatUint_length (k : Nat) : ∀ n, n < 10 ^ (k + 1) → (formatUint n).length ≤ k + 1 := by
  induction k with
  | zero =>
    intro n hn
    rw [formatUint_eq]
    have : n < 10 := by simpa using hn
    simp [this]
  | succ k ih =>
    intro n hn
    rw [formatUint_eq]
    by_cases h : n < 10
    · simp [h]
    · have h1 : n / 10 < 10 ^ (k + 1) := by
        rw [Nat.div_lt_iff_lt_mul (by norm_num)]
        calc n < 10 ^ (k + 1 + 1) := hn
          _ = 10 ^ (k + 1) * 10 := by ring
      have := ih (n / 10) h1
      simp only [h, if_false, List.length_append, List.length_singleton]
      omega

theorem jsonMarshal_eq (m : PDU) :
    (jsonMarshal m).1 = marshalHead m ++ (marshalBytes m.Data ++ [125]) := by
  simp [jsonMarshal, marshalHead]

theorem marshalHead_length (m : PDU) (hm : m.Valid) : (marshalHead m).length ≤ 37 := by
  have h1 : (formatUint m.Mtype).length ≤ 3 :=
    formatUint_length 2 m.Mtype (lt_trans hm.1 (by norm_num))
  have h2 : (formatUint m.Len).length ≤ 10 :=
    formatUint_length 9 m.Len (lt_trans hm.2.1 (by norm_num))
  simp only [marshalHead, List.length_append, List.length_cons, List.length_nil]
  omega

theorem parseMembers_end (fuel depth : Nat) (key vtext : List Nat) (v : JValue)
    (hk : ∀ c ∈ key, plainByte c)
    (hv : parseValue fuel depth vtext = some (v, [])) :
    parseMembers (fuel + 1) depth (34 :: (key ++ 34 :: 58 :: vtext)) = none := by
  have hs := scanString_plain key (58 :: vtext) hk
  simp [parseMembers, skipSpace, isSpace, expect, hs, hv]

/-- When the value of `data` does not parse as a member value followed by a
comma or a brace, the whole input is no JSON value. -/
theorem parseValue_marshalHead_cut (fuel : Nat) (m : PDU) (tail : List Nat)
    (ht : parseMembers (fuel + 2) 1 (34 :: 100 :: 97 :: 116 :: 97 :: 34 :: 58 :: tail) = none) :
    parseValue (fuel + 5) 0 (marshalHead m ++ tail) = none := by
  have h2 := parseMembers_comma (fuel + 2) 1 [108, 101, 110]
    (formatUint m.Len ++ 44 :: 34 :: 100 :: 97 :: 116 :: 97 :: 34 :: 58 :: tail)
    _ (JValue.number (formatUint m.Len)) plain_len (parseValue_formatUint (fuel + 1) 1 m.Len _)
  rw [ht] at h2
  have h1 := parseMembers_comma (fuel + 3) 1 [109, 116, 121, 112, 101]
    (formatUint m.Mtype ++ 44 :: 34 :: ([108, 101, 110] ++ 34 :: 58 :: (formatUint m.Len ++ 44 :: 34
      :: 100 :: 97 :: 116 :: 97 :: 34 :: 58 :: tail)))
    _ (JValue.number (formatUint m.Mtype)) plain_mtype (parseValue_formatUint (fuel + 2) 1 m.Mtype _)
  rw [h2] at h1
  simp only [List.cons_append, List.nil_append, Option.map_none'] at h1
  simp only [marshalHead, List.cons_append, List.nil_append, List.append_assoc]
  rw [parseValue]
  simp [h1, skipSpace, isSpace, expect, maxNestingDepth]

/-- The first 1024 bytes of an output of `json.Marshal` that is longer than
1024 bytes are no JSON value. -/
theorem parseJSON_take (m : PDU) (hm : m.Valid)
    (hlen : MAX_PDU_SIZE < (jsonMarshal m).1.length) :
    parseJSON ((jsonMarshal m).1.take MAX_PDU_SIZE) = none := by
  have hhead := marshalHead_length m hm
  rw [jsonMarshal_eq] at hlen ⊢
  simp only [MAX_PDU_SIZE] at hlen ⊢
  cases hdata : m.Data with
  | none =>
    rw [hdata] at hlen
    simp [marshalBytes] at hlen
    omega
  | some d =>
    rw [hdata] at hlen
    have hplain : ∀ c ∈ b64Encode d, plainByte c :=
      fun c hc => (b64Encode_bytes d (hm.2.2 d hdata) c hc).1
    simp only [marshalBytes, List.length_append, List.length_cons, List.length_nil] at hlen
    obtain ⟨j, hj⟩ : ∃ j, 1024 - (marshalHead m).length = j + 1 :=
      ⟨1023 - (marshalHead m).length, by omega⟩
    have htake : (marshalHead m ++ (marshalBytes (some d) ++ [125])).take 1024
        = marshalHead m ++ 34 :: ((b64Encode d).take j ++ ([34, 125].take (j - (b64Encode d).length))) := by
      rw [List.take_append_eq_append_take, List.take_of_length_le (by omega), hj]
      simp [marshalBytes, List.take_append_eq_append_take]
    have hl : (marshalHead m ++ 34 :: ((b64Encode d).take j
        ++ ([34, 125].take (j - (b64Encode d).length)))).length = 1024 := by
      rw [← htake, List.length_take]
      simp [marshalBytes]
      omega
    rw [htake]
    unfold parseJSON
    rw [hl]
    have hcut : parseValue (1020 + 5) 0 (marshalHead m ++ 34 :: ((b64Encode d).take j
        ++ ([34, 125].take (j - (b64Encode d).length)))) = none := by
      apply parseValue_marshalHead_cut
      by_cases hjb : j ≤ (b64Encode d).length
      · have h0 : j - (b64Encode d).length = 0 := by omega
        rw [h0]
        simp only [List.take_zero, List.append_nil]
        have hp : ∀ c ∈ (b64Encode d).take j, plainByte c :=
          fun c hc => hplain c (List.mem_of_mem_take hc)
        exact parseMembers_cut (1020 + 1) 1 [100, 97, 116, 97] _ plain_data
          (parseValue_string_cut 1020 1 _ hp)
      · have h1 : j - (b64Encode d).length = 1 := by omega
        rw [h1, List.take_of_length_le (by omega)]
        exact parseMembers_end (1020 + 1) 1 [100, 97, 116, 97] _ (JValue.string (b64Encode d))
          plain_data (parseValue_string 1020 1 (b64Encode d) [] hplain)
    rw [show 1024 + 1 = 1020 + 5 from rfl, hcut]

theorem b64Encode_length (d : List Nat) : (b64Encode d).length = 4 * ((d.length + 2) / 3) := by
  induction d using b64Encode.induct with
  | case1 => simp [b64Encode]
  | case2 a => simp [b64Encode]
  | case3 a b => simp [b64Encode]
  | case4 a b c rest ih =>
    simp only [b64Encode, List.length_cons, ih]
    omega

theorem largePDU_valid : PDU.Valid largePDU := by
  refine ⟨by decide, by decide, ?_⟩
  intro d hd b hb
  cases hd
  have := List.eq_of_mem_replicate hb
  omega

theorem largePDU_length : MAX_PDU_SIZE < (PduToBytes largePDU).1.length := by
  rw [PduToBytes, jsonMarshal_eq]
  simp only [largePDU, marshalBytes, List.length_append, List.length_cons, List.length_nil,
    b64Encode_length, List.length_replicate, MAX_PDU_SIZE]
  omega

/-! ## Facts about `strings.Index` and `strings.SplitN` -/

theorem HasPrefix_append (sep t : List Nat) : HasPrefix (sep ++ t) sep = true := by
  induction sep with
  | nil => cases t <;> rfl
  | cons p ps ih => simp [HasPrefix, ih]

theorem HasPrefix_elim : ∀ (s sep : List Nat), HasPrefix s sep = true →
    s = sep ++ s.drop sep.length
  | s, [], _ => by simp
  | [], _ :: _, h => by simp [HasPrefix] at h
  | c :: cs, p :: ps, h => by
    simp only [HasPrefix, Bool.and_eq_true, decide_eq_true_eq] at h
    have := HasPrefix_elim cs ps h.2
    simp only [List.cons_append, List.length_cons, List.drop_succ_cons]
    rw [← this, h.1]

theorem Index_some_split (sep : List Nat) : ∀ (s : List Nat) (i : Nat), Index s sep = some i →
    s = s.take i ++ sep ++ s.drop (i + sep.length) := by
  intro s
  induction s with
  | nil =>
    intro i h
    simp only [Index] at h
    split at h
    · rename_i hs
      simp [hs]
    · simp at h
  | cons c cs ih =>
    intro i h
    simp only [Index] at h
    split at h
    · rename_i hp
      have hi : i = 0 := by simpa using h.symm
      subst hi
      simpa using HasPrefix_elim (c :: cs) sep hp
    · cases hcs : Index cs sep with
      | none => simp [hcs] at h
      | some j =>
        have hi : i = j + 1 := by simpa [hcs] using h.symm
        subst hi
        have := ih j hcs
        simp only [List.take_succ_cons, List.cons_append, Nat.add_right_comm j 1 sep.length,
          List.drop_succ_cons]
        rw [← this]

theorem Index_some_first (sep : List Nat) (hsep : sep ≠ []) : ∀ (s : List Nat) (i : Nat),
    Index s sep = some i → ∀ a b, s.take i ≠ a ++ sep ++ b := by
  intro s
  induction s with
  | nil =>
    intro i _ a b h
    have : sep = [] := by
      have h2 := congrArg List.length h
      simp at h2
      exact List.eq_nil_of_length_eq_zero (by omega)
    exact hsep this
  | cons c cs ih =>
    intro i h a b hab
    simp only [Index] at h
    split at h
    · have hi : i = 0 := by simpa using h.symm
      subst hi
      have h2 := congrArg List.length hab
      simp at h2
      exact hsep (List.eq_nil_of_length_eq_zero (by omega))
    · rename_i hp
      cases hcs : Index cs sep with
      | none => simp [hcs] at h
      | some j =>
        have hi : i = j + 1 := by simpa [hcs] using h.symm
        subst hi
        simp only [List.take_succ_cons] at hab
        cases a with
        | nil =>
          apply hp
          have hfull : c :: cs = sep ++ (b ++ cs.drop j) := by
            have h3 : c :: cs = (c :: cs.take j) ++ cs.drop j := by simp
            rw [h3, hab]
            simp
          rw [hfull]
          exact HasPrefix_append sep _
        | cons a0 a' =>
          simp only [List.cons_append, List.cons.injEq] at hab
          exact ih j hcs a' b (by simpa using hab.2)

theorem Index_none (sep : List Nat) : ∀ (s : List Nat), Index s sep = none →
    ∀ a b, s ≠ a ++ sep ++ b := by
  intro s
  induction s with
  | nil =>
    intro h a b hab
    simp only [Index] at h
    split at h
    · simp at h
    · rename_i hs
      apply hs
      have h2 := congrArg List.length hab
      simp at h2
      exact List.eq_nil_of_length_eq_zero (by omega)
  | cons c cs ih =>
    intro h a b hab
    simp only [Index] at h
    split at h
    · simp at h
    · rename_i hp
      have hcs : Index cs sep = none := by simpa using h
      cases a with
      | nil =>
        apply hp
        rw [hab]
        simpa using HasPrefix_append sep b
      | cons a0 a' =>
        simp only [List.cons_append, List.cons.injEq] at hab
        exact ih hcs a' b (by simpa using hab.2)

/-- In a string `u ++ ": " ++ t` whose part `u` holds no `": "`, the first
occurrence of `": "` is the one after `u`. -/
theorem Index_colonSpace (t : List Nat) : ∀ (u : List Nat),
    (∀ a b, u ≠ a ++ colonSpace ++ b) →
    Index (u ++ colonSpace ++ t) colonSpace = some u.length := by
  intro u
  induction u with
  | nil =>
    intro _
    simp [colonSpace, Index, HasPrefix]
  | cons c cs ih =>
    intro hfree
    have hcs : ∀ a b, cs ≠ a ++ colonSpace ++ b := by
      intro a b h
      exact hfree (c :: a) b (by simp [h])
    have hp : HasPrefix (c :: cs ++ colonSpace ++ t) colonSpace = false := by
      cases cs with
      | nil =>
        simp [colonSpace, HasPrefix]
      | cons d ds =>
        by_cases h1 : c = 58
        · by_cases h2 : d = 32
          · exfalso
            exact hfree [] ds (by simp [colonSpace, h1, h2])
          · simp [colonSpace, HasPrefix, h2]
        · simp [colonSpace, HasPrefix, h1]
    have := ih hcs
    simp only [List.cons_append, List.append_assoc] at hp this ⊢
    simp [Index, hp, this]

theorem SplitN_two_none (s sep : List Nat) (h : Index s sep = none) : SplitN s sep 2 = [s] := by
  unfold SplitN
  simp only [OfNat.ofNat_ne_zero, if_false]
  cases hk : min 2 (s.length + 1) - 1 with
  | zero => rfl
  | succ k => simp [genSplit, h]

theorem SplitN_two_some (s sep : List Nat) (hsep : sep ≠ []) (i : Nat) (h : Index s sep = some i) :
    SplitN s sep 2 = [s.take i, s.drop (i + sep.length)] := by
  have hs : s ≠ [] := by
    intro hs
    subst hs
    simp [Index, hsep] at h
  have hl : 0 < s.length := List.length_pos.mpr hs
  have hk : min 2 (s.length + 1) - 1 = 1 := by omega
  unfold SplitN
  simp [hk, genSplit, h]

/-! ## Facts about the registry and the fan-out -/

theorem lookup_mapSet_same {κ : Type} [DecidableEq κ] (m : AList (fun _ : κ => List Nat)) (k : κ)
    (v : List Nat) : (mapSet m k v).lookup k = some v := by
  simp [mapSet]

theorem lookup_mapSet_ne {κ : Type} [DecidableEq κ] (m : AList (fun _ : κ => List Nat)) (k j : κ)
    (v : List Nat) (h : j ≠ k) : (mapSet m k v).lookup j = m.lookup j := by
  simp [mapSet, AList.lookup_insert_ne h]

theorem lookup_mapDelete_same {κ : Type} [DecidableEq κ] (m : AList (fun _ : κ => List Nat))
    (k : κ) : (mapDelete m k).lookup k = none := by
  simp [mapDelete]

theorem lookup_mapDelete_ne {κ : Type} [DecidableEq κ] (m : AList (fun _ : κ => List Nat))
    (k j : κ) (h : j ≠ k) : (mapDelete m k).lookup j = m.lookup j := by
  simp [mapDelete, AList.lookup_erase_ne h]

theorem mem_keys_mapDelete {κ : Type} [DecidableEq κ] (m : AList (fun _ : κ => List Nat))
    (k j : κ) : j ∈ (mapDelete m k).keys ↔ j ≠ k ∧ j ∈ m.keys := by
  have := @AList.mem_erase κ (fun _ => List Nat) _ k j m
  simpa [mapDelete, AList.mem_keys] using this

theorem writeTargets_map (l : List StreamEntry) (f : Nat → List Nat) (g : Nat → Bool) :
    writeTargets (l.map (fun e => Event.write e.1 (f e.1) (g e.1))) = l.map (fun e => e.1) := by
  induction l with
  | nil => rfl
  | cons e es ih => simp [writeTargets, ih]

theorem range_keys (env : Env) (m : AList (fun _ : Nat => List Nat)) :
    List.Perm ((env.rangeOrder m.entries).map (fun e => e.1)) m.keys :=
  (env.rangePerm m.entries).map _

theorem count_keys (m : AList (fun _ : Nat => List Nat)) (k : Nat) :
    m.keys.count k = if k ∈ m.keys then 1 else 0 := by
  by_cases h : k ∈ m.keys
  · simp [h, List.count_eq_one_of_mem m.keys_nodup h]
  · simp [h, List.count_eq_zero_of_not_mem h]

theorem broadcast_state (env : Env) (s : Server) (p : PDU) : (broadcast env s p).1 = s := by
  unfold broadcast
  split <;> rfl

theorem broadcast_events (env : Env) (s : Server) (p : PDU) :
    (broadcast env s p).2 = (env.rangeOrder s.streams.entries).map
      (fun e => Event.write e.1 (PduToBytes p).1 (env.writeOk e.1 (PduToBytes p).1)) := by
  have h : (PduToBytes p).2 = none := rfl
  simp [broadcast, h]

theorem broadcast_count (env : Env) (s : Server) (p : PDU) (k : Nat) :
    (writeTargets (broadcast env s p).2).count k = if k ∈ s.streams.keys then 1 else 0 := by
  rw [broadcast_events,
    writeTargets_map _ (fun _ => (PduToBytes p).1) (fun j => env.writeOk j (PduToBytes p).1),
    (range_keys env s.streams).count_eq, count_keys]

theorem broadcast_mem (env : Env) (s : Server) (p : PDU) :
    ∀ e ∈ (broadcast env s p).2,
      ∃ k, e = Event.write k (PduToBytes p).1 (env.writeOk k (PduToBytes p).1) := by
  intro e he
  rw [broadcast_events, List.mem_map] at he
  obtain ⟨x, _, hx⟩ := he
  exact ⟨x.1, hx.symm⟩

theorem broadcast_length (env : Env) (s : Server) (p : PDU) :
    (broadcast env s p).2.length = s.streams.keys.length := by
  rw [broadcast_events, List.length_map, (env.rangePerm _).length_eq]
  simp [AList.keys, List.keys]

/-- C2. Broadcast fan-out: for every registry state, every PDU, every order
of the `range` and every outcome of the writes, `broadcast` leaves the registry
unchanged, writes exactly once to every stream that is a key of `streams` and to
no other stream, and every event is a write of the same bytes `PduToBytes` gives
for the PDU; a write that fails does not stop the loop, the number of writes
being the number of keys whatever the outcomes are. -/
theorem broadcast_fanout (env : Env) (s : Server) (p : PDU) :
    (broadcast env s p).1 = s
    ∧ (∀ k, (writeTargets (broadcast env s p).2).count k = if k ∈ s.streams.keys then 1 else 0)
    ∧ (∀ e ∈ (broadcast env s p).2,
        ∃ k, e = Event.write k (PduToBytes p).1 (env.writeOk k (PduToBytes p).1))
    ∧ (broadcast env s p).2.length = s.streams.keys.length :=
  ⟨broadcast_state env s p, broadcast_count env s p, broadcast_mem env s p,
    broadcast_length env s p⟩

/-! ## The deferred function of `protocolHandler` -/

theorem handlerExit_state (env : Env) (s : Server) (stream : Nat) (addr : List Nat) :
    (handlerExit env s stream addr).1
      = { streams := mapDelete s.streams stream, usernames := mapDelete s.usernames addr } := by
  simp [handlerExit, broadcast_state, unregister]

theorem handlerExit_events (env : Env) (s : Server) (stream : Nat) (addr : List Nat) :
    (handlerExit env s stream addr).2 = Event.close stream ::
      (broadcast env { streams := mapDelete s.streams stream,
                       usernames := mapDelete s.usernames addr }
        (NewPDU TYPE_LEAVE (some (mapGet s.streams stream ++ leftTheChat)))).2 := by
  simp [handlerExit, unregister]

theorem protocolHandler_fail (env : Env) (s : Server) (stream : Nat) (addr : List Nat)
    (res : ReadResult) (rest : List (Env × ReadResult))
    (hfail : res = ReadResult.error ∨ ∃ raw, res = ReadResult.bytes raw
      ∧ (PduFromBytes (raw.take MakePduBuffer.length)).2 ≠ none) :
    protocolHandler stream addr ((env, res) :: rest) s = handlerExit env s stream addr := by
  rcases hfail with h | ⟨raw, h, herr⟩
  · subst h
    rfl
  · subst h
    simp [protocolHandler, herr]

/-! ## Register, update, unregister -/

theorem mapGet_foldl_updateIdentity (stream : Nat) (addr : List Nat) (us : List (List Nat)) :
    ∀ s : Server,
      mapGet (us.foldl (fun st u => updateIdentity st stream addr u) s).streams stream
        = us.getLastD (mapGet s.streams stream) := by
  induction us with
  | nil => intro s; rfl
  | cons u us ih =>
    intro s
    rw [List.foldl_cons, ih]
    rw [List.getLastD_cons]
    simp [updateIdentity, mapGet, lookup_mapSet_same]

/-- C4. Register then unregister: for every registry state, stream and
address, after registering the stream, applying any finite sequence of identity
updates to it, and then unregistering it, `streams` has no entry for the stream,
`usernames` has no entry for the address, and the username returned by the
unregister step is the username of the last identity update, or the empty
string when no update was applied. -/
theorem register_unregister (s : Server) (stream : Nat) (addr : List Nat)
    (us : List (List Nat)) :
    (unregister (us.foldl (fun st u => updateIdentity st stream addr u) (register s stream))
        stream addr).1.streams.lookup stream = none
    ∧ (unregister (us.foldl (fun st u => updateIdentity st stream addr u) (register s stream))
        stream addr).1.usernames.lookup addr = none
    ∧ (unregister (us.foldl (fun st u => updateIdentity st stream addr u) (register s stream))
        stream addr).2 = us.getLastD [] := by
  refine ⟨lookup_mapDelete_same _ _, lookup_mapDelete_same _ _, ?_⟩
  simp only [unregister]
  rw [mapGet_foldl_updateIdentity]
  simp [register, mapGet, lookup_mapSet_same]

/-! ## The user list -/

theorem Join_eq_intercalate (sep : List Nat) : ∀ l : List (List Nat),
    Join l sep = List.intercalate sep l
  | [] => rfl
  | [a] => by simp [Join, List.intercalate, List.intersperse]
  | a :: b :: rest => by
    have ih := Join_eq_intercalate sep (b :: rest)
    simp only [Join, ih, List.intercalate, List.intersperse, List.flatten_cons, List.append_assoc]

theorem userList_perm (env : Env) (s : Server) :
    List.Perm (userList env s) ((mapValues s.streams).filter (fun u => decide (u ≠ []))) :=
  ((env.rangePerm s.streams.entries).map _).filter _

theorem mem_userList (env : Env) (s : Server) (v : List Nat) :
    v ∈ userList env s ↔ v ≠ [] ∧ ∃ k, s.streams.lookup k = some v := by
  rw [(userList_perm env s).mem_iff]
  simp only [mapValues, List.mem_filter, List.mem_map, decide_eq_true_eq]
  constructor
  · rintro ⟨⟨e, he, hv⟩, hne⟩
    refine ⟨hne, e.1, ?_⟩
    rw [← hv]
    exact AList.mem_lookup_iff.mpr he
  · rintro ⟨hne, k, hk⟩
    exact ⟨⟨⟨k, v⟩, AList.mem_lookup_iff.mp hk, rfl⟩, hne⟩

theorem listActiveUsers_events (env : Env) (s : Server) (stream : Nat) :
    (listActiveUsers env s stream).2
      = [Event.write stream (PduToBytes (listResponse env s)).1
          (env.writeOk stream (PduToBytes (listResponse env s)).1)] := by
  have h : (PduToBytes (listResponse env s)).2 = none := rfl
  simp [listActiveUsers, h]

theorem listActiveUsers_state (env : Env) (s : Server) (stream : Nat) :
    (listActiveUsers env s stream).1 = s := by
  unfold listActiveUsers
  split <;> rfl

/-- C5. Active-user listing: for every registry state, the user list built by
`listActiveUsers` is a permutation of the non-empty values of `streams` (every
stream with a non-empty username contributes it once, the empty string does not
appear), the only event is one write to the requesting stream, of the bytes of
the PDU of kind `TYPE_DATA` (0) whose payload is `"Active users: "` followed by
those usernames joined with `", "`, and the registry is unchanged. -/
theorem listActiveUsers_reply (env : Env) (s : Server) (stream : Nat) :
    (listActiveUsers env s stream).1 = s
    ∧ List.Perm (userList env s) ((mapValues s.streams).filter (fun u => decide (u ≠ [])))
    ∧ (∀ u ∈ userList env s, u ≠ [])
    ∧ (listActiveUsers env s stream).2
        = [Event.write stream (PduToBytes (listResponse env s)).1
            (env.writeOk stream (PduToBytes (listResponse env s)).1)]
    ∧ listResponse env s
        = { Mtype := 0,
            Len := (activeUsersLabel ++ Join (userList env s) commaSpace).length % 2 ^ 32,
            Data := some (activeUsersLabel ++ Join (userList env s) commaSpace) }
    ∧ Join (userList env s) commaSpace = List.intercalate commaSpace (userList env s) :=
  ⟨listActiveUsers_state env s stream, userList_perm env s,
    fun u hu => ((mem_userList env s u).mp hu).1, listActiveUsers_events env s stream, rfl,
    Join_eq_intercalate _ _⟩

/-! ## The payload convention -/

theorem colonSpace_ne_nil : colonSpace ≠ [] := by decide

theorem handlePDU_none (env : Env) (s : Server) (stream : Nat) (addr : List Nat) (data : PDU)
    (h : Index (dataString data) colonSpace = none) :
    handlePDU env s stream addr data = broadcast env s data := by
  simp [handlePDU, SplitN_two_none _ _ h]

theorem handlePDU_some (env : Env) (s : Server) (stream : Nat) (addr : List Nat) (data : PDU)
    (u t : List Nat) (hd : dataString data = u ++ colonSpace ++ t)
    (hu : ∀ a b, u ≠ a ++ colonSpace ++ b) :
    SplitN (dataString data) colonSpace 2 = [u, t]
    ∧ handlePDU env s stream addr data
      = if t = listCommand then listActiveUsers env (updateIdentity s stream addr u) stream
        else broadcast env (updateIdentity s stream addr u) data := by
  have hi := Index_colonSpace t u hu
  rw [← hd] at hi
  have hsplit := SplitN_two_some _ _ colonSpace_ne_nil _ hi
  have h1 : (dataString data).take u.length = u := by
    rw [hd, List.append_assoc, List.take_left]
  have h2 : (dataString data).drop (u.length + colonSpace.length) = t := by
    rw [hd, ← List.length_append, List.drop_left]
  rw [h1, h2] at hsplit
  exact ⟨hsplit, by simp [handlePDU, hsplit]⟩

theorem handlePDU_state_some (env : Env) (s : Server) (stream : Nat) (addr : List Nat)
    (data : PDU) (u t : List Nat) (hd : dataString data = u ++ colonSpace ++ t)
    (hu : ∀ a b, u ≠ a ++ colonSpace ++ b) :
    (handlePDU env s stream addr data).1 = updateIdentity s stream addr u := by
  rw [(handlePDU_some env s stream addr data u t hd hu).2]
  split
  · exact listActiveUsers_state _ _ _
  · exact broadcast_state _ _ _

theorem contains_split (p sep : List Nat) (hsep : sep ≠ []) (h : ∃ a b, p = a ++ sep ++ b) :
    ∃ u t, p = u ++ sep ++ t ∧ ∀ a b, u ≠ a ++ sep ++ b := by
  cases hi : Index p sep with
  | none =>
    obtain ⟨a, b, hab⟩ := h
    exact absurd hab (Index_none sep p hi a b)
  | some i =>
    exact ⟨p.take i, p.drop (i + sep.length), Index_some_split sep p i hi,
      Index_some_first sep hsep p i hi⟩

theorem Index_none_of_free (p sep : List Nat) (h : ∀ a b, p ≠ a ++ sep ++ b) :
    Index p sep = none := by
  cases hi : Index p sep with
  | none => rfl
  | some i => exact absurd (Index_some_split sep p i hi) (h _ _)

/-- The handling of a decoded PDU whose payload is `u ++ ": /list"` with no
`": "` in `u`: the identity becomes `u` and the only event is the write of the
user list of the updated registry to the requesting stream. -/
theorem handlePDU_list (env : Env) (s : Server) (stream : Nat) (addr : List Nat) (data : PDU)
    (u : List Nat) (hu : ∀ a b, u ≠ a ++ colonSpace ++ b)
    (hd : dataString data = u ++ colonSpace ++ listCommand) :
    (handlePDU env s stream addr data).1.streams.lookup stream = some u
    ∧ (handlePDU env s stream addr data).1.usernames.lookup addr = some u
    ∧ (handlePDU env s stream addr data).2
        = [Event.write stream (PduToBytes (listResponse env (handlePDU env s stream addr data).1)).1
            (env.writeOk stream
              (PduToBytes (listResponse env (handlePDU env s stream addr data).1)).1)]
    ∧ (listResponse env (handlePDU env s stream addr data).1).Data
        = some (activeUsersLabel
            ++ Join (userList env (handlePDU env s stream addr data).1) commaSpace)
    ∧ (u ≠ [] → u ∈ userList env (handlePDU env s stream addr data).1)
    ∧ (∀ k v, k ≠ stream → s.streams.lookup k = some v → v ≠ [] →
        v ∈ userList env (handlePDU env s stream addr data).1) := by
  have hstate := handlePDU_state_some env s stream addr data u listCommand hd hu
  have hev := (handlePDU_some env s stream addr data u listCommand hd hu).2
  rw [if_pos rfl] at hev
  rw [hstate]
  refine ⟨lookup_mapSet_same _ _ _, lookup_mapSet_same _ _ _, ?_, rfl, ?_, ?_⟩
  · rw [hev]
    exact listActiveUsers_events _ _ _
  · intro hne
    exact (mem_userList _ _ _).mpr ⟨hne, stream, lookup_mapSet_same _ _ _⟩
  · intro k v hk hv hne
    refine (mem_userList _ _ _).mpr ⟨hne, k, ?_⟩
    simp only [updateIdentity]
    rw [lookup_mapSet_ne _ _ _ _ hk]
    exact hv

theorem carol_free : ∀ a b : List Nat, [99, 97, 114, 111, 108] ≠ a ++ colonSpace ++ b := by
  apply Index_none colonSpace
  decide

/-- The handling of a decoded PDU by the payload convention: a payload with
`": "` is cut at the first occurrence and the identity is updated, a payload
without it leaves the registry and is broadcast; the payload of the client is
cut into the username and the line. -/
theorem handlePDU_split (env : Env) (s : Server) (stream : Nat) (addr : List Nat) (data : PDU) :
    ((∃ a b, dataString data = a ++ colonSpace ++ b) →
      ∃ u t, dataString data = u ++ colonSpace ++ t
        ∧ (∀ a b, u ≠ a ++ colonSpace ++ b)
        ∧ SplitN (dataString data) colonSpace 2 = [u, t]
        ∧ (handlePDU env s stream addr data).1 = updateIdentity s stream addr u
        ∧ (handlePDU env s stream addr data).1.streams.lookup stream = some u
        ∧ (handlePDU env s stream addr data).1.usernames.lookup addr = some u)
    ∧ ((∀ a b, dataString data ≠ a ++ colonSpace ++ b) →
        (handlePDU env s stream addr data).1 = s
        ∧ handlePDU env s stream addr data = broadcast env s data
        ∧ (handlePDU env s stream addr data).2 = (env.rangeOrder s.streams.entries).map
            (fun e => Event.write e.1 (PduToBytes data).1 (env.writeOk e.1 (PduToBytes data).1)))
    ∧ (∀ u l : List Nat, (∀ a b, u ≠ a ++ colonSpace ++ b) →
        SplitN (clientPayload u l) colonSpace 2 = [u, l]) := by
  refine ⟨?_, ?_, ?_⟩
  · intro h
    obtain ⟨u, t, hd, hu⟩ := contains_split _ _ colonSpace_ne_nil h
    have hstate := handlePDU_state_some env s stream addr data u t hd hu
    refine ⟨u, t, hd, hu, (handlePDU_some env s stream addr data u t hd hu).1, hstate, ?_, ?_⟩
    · rw [hstate]; exact lookup_mapSet_same _ _ _
    · rw [hstate]; exact lookup_mapSet_same _ _ _
  · intro h
    have hb := handlePDU_none env s stream addr data (Index_none_of_free _ _ h)
    refine ⟨by rw [hb]; exact broadcast_state _ _ _, hb, by rw [hb]; exact broadcast_events _ _ _⟩
  · intro u l hu
    have hi := Index_colonSpace l u hu
    have hsplit := SplitN_two_some _ _ colonSpace_ne_nil _ hi
    have h1 : (u ++ colonSpace ++ l).take u.length = u := by
      rw [List.append_assoc, List.take_left]
    have h2 : (u ++ colonSpace ++ l).drop (u.length + colonSpace.length) = l := by
      rw [← List.length_append, List.drop_left]
    rw [h1, h2] at hsplit
    exact hsplit

/-- The handling of a decoded PDU does not depend on its kind. -/
theorem handlePDU_kind_free (env : Env) (s : Server) (stream : Nat) (addr : List Nat)
    (data : PDU) :
    (∀ kind : Nat, (handlePDU env s stream addr { data with Mtype := kind }).1
        = (handlePDU env s stream addr data).1)
    ∧ ((∀ a b, dataString data ≠ a ++ colonSpace ++ b) →
        (handlePDU env s stream addr data).1 = s
        ∧ mapGet (handlePDU env s stream addr data).1.streams stream = mapGet s.streams stream)
    ∧ (∀ u t : List Nat, dataString data = u ++ colonSpace ++ t →
        (∀ a b, u ≠ a ++ colonSpace ++ b) →
        mapGet (handlePDU env s stream addr data).1.streams stream = u) := by
  refine ⟨?_, ?_, ?_⟩
  · intro kind
    have hds : dataString { data with Mtype := kind } = dataString data := rfl
    cases hi : Index (dataString data) colonSpace with
    | none =>
      rw [handlePDU_none env s stream addr data hi,
        handlePDU_none env s stream addr _ (by rw [hds]; exact hi), broadcast_state,
        broadcast_state]
    | some i =>
      have hd := Index_some_split colonSpace _ i hi
      have hu := Index_some_first colonSpace colonSpace_ne_nil _ i hi
      rw [handlePDU_state_some env s stream addr data _ _ hd hu,
        handlePDU_state_some env s stream addr { data with Mtype := kind } _ _
          (by rw [hds]; exact hd) hu]
  · intro h
    have hb := handlePDU_none env s stream addr data (Index_none_of_free _ _ h)
    rw [hb, broadcast_state]
    exact ⟨rfl, rfl⟩
  · intro u t hd hu
    rw [handlePDU_state_some env s stream addr data u t hd hu]
    simp [updateIdentity, mapGet, lookup_mapSet_same]

/-! ## The fuel of the JSON parser -/

theorem skipSpace_length (cs : List Nat) : (skipSpace cs).length ≤ cs.length := by
  induction cs with
  | nil => simp [skipSpace]
  | cons c cs ih =>
    simp only [skipSpace]
    split
    · simp only [List.length_cons]; omega
    · exact le_refl _

theorem expect_length (c : Nat) (cs r : List Nat) (h : expect c cs = some r) :
    r.length + 1 = cs.length := by
  cases cs with
  | nil => simp [expect] at h
  | cons d ds =>
    simp only [expect] at h
    split at h
    · simp only [Option.some.injEq] at h
      subst h
      simp
    · simp at h

theorem expectWord_length : ∀ (w cs r : List Nat), expectWord w cs = some r →
    r.length ≤ cs.length
  | [], cs, r, h => by
    simp only [expectWord, Option.some.injEq] at h
    subst h
    exact le_refl _
  | c :: w, cs, r, h => by
    simp only [expectWord] at h
    cases he : expect c cs with
    | none => simp [he] at h
    | some r1 =>
      simp only [he, Option.some_bind] at h
      have h1 := expect_length c cs r1 he
      have h2 := expectWord_length w r1 r h
      omega

theorem scanString_length : ∀ (n : Nat) (cs s r : List Nat), cs.length ≤ n →
    scanString cs = some (s, r) → r.length < cs.length := by
  intro n
  induction n with
  | zero =>
    intro cs s r hn h
    have : cs = [] := List.eq_nil_of_length_eq_zero (by omega)
    subst this
    rw [scanString.eq_def] at h
    simp at h
  | succ n ih =>
    intro cs s r hn h
    rw [scanString.eq_def] at h
    cases cs with
    | nil => simp at h
    | cons c cs =>
      simp only [List.length_cons] at hn ⊢
      simp only at h
      split at h
      · simp only [Option.some.injEq, Prod.mk.injEq] at h
        rw [← h.2]
        omega
      · split at h
        · cases cs with
          | nil => simp at h
          | cons e cs1 =>
            simp only [List.length_cons] at hn ⊢
            simp only at h
            split at h
            · split at h
              · rename_i h1 h2 h3 h4 cs2
                split at h
                · simp at h
                · simp only [Option.map_eq_some', Prod.mk.injEq, Prod.exists] at h
                  obtain ⟨s', r', hr, _, hr2⟩ := h
                  subst hr2
                  have := ih cs2 s' r' (by simp only [List.length_cons] at hn; omega) hr
                  simp only [List.length_cons]
                  omega
              · simp at h
            · split at h
              · simp at h
              · simp only [Option.map_eq_some', Prod.mk.injEq, Prod.exists] at h
                obtain ⟨s', r', hr, _, hr2⟩ := h
                subst hr2
                have := ih cs1 s' r' (by omega) hr
                omega
        · split at h
          · simp at h
          · simp only [Option.map_eq_some', Prod.mk.injEq, Prod.exists] at h
            obtain ⟨s', r', hr, _, hr2⟩ := h
            subst hr2
            have := ih cs s' r' (by omega) hr
            omega

theorem spanDigits_length (cs : List Nat) : (spanDigits cs).2.length ≤ cs.length := by
  induction cs with
  | nil => simp [spanDigits]
  | cons c cs ih =>
    simp only [spanDigits]
    split
    · simp only [List.length_cons]; omega
    · exact le_refl _

theorem scanInt_length (cs i r : List Nat) (h : scanInt cs = some (i, r)) :
    r.length < cs.length := by
  cases cs with
  | nil => simp [scanInt] at h
  | cons c cs =>
    simp only [scanInt] at h
    have := spanDigits_length cs
    split at h
    · simp only [Option.some.injEq, Prod.mk.injEq] at h
      rw [← h.2]; simp
    · split at h
      · simp only [Option.some.injEq, Prod.mk.injEq] at h
        rw [← h.2]; simp only [List.length_cons]; omega
      · simp at h

theorem scanFrac_length (cs f r : List Nat) (h : scanFrac cs = some (f, r)) :
    r.length ≤ cs.length := by
  cases cs with
  | nil =>
    simp only [scanFrac, Option.some.injEq, Prod.mk.injEq] at h
    rw [← h.2]
  | cons c cs =>
    simp only [scanFrac] at h
    have := spanDigits_length cs
    split at h
    · split at h
      · simp at h
      · simp only [Option.some.injEq, Prod.mk.injEq] at h
        rw [← h.2]; simp only [List.length_cons]; omega
    · simp only [Option.some.injEq, Prod.mk.injEq] at h
      rw [← h.2]

theorem scanExpDigits_length (cs e r : List Nat) (h : scanExpDigits cs = some (e, r)) :
    r.length ≤ cs.length := by
  simp only [scanExpDigits] at h
  have := spanDigits_length cs
  split at h
  · simp at h
  · simp only [Option.some.injEq] at h
    rw [h] at this
    exact this

theorem scanExp_length (cs e r : List Nat) (h : scanExp cs = some (e, r)) :
    r.length ≤ cs.length := by
  cases cs with
  | nil =>
    simp only [scanExp, Option.some.injEq, Prod.mk.injEq] at h
    rw [← h.2]
  | cons c cs =>
    simp only [scanExp] at h
    split at h
    · cases cs with
      | nil => simp at h
      | cons s cs1 =>
        simp only at h
        split at h
        · simp only [Option.map_eq_some', Prod.mk.injEq, Prod.exists] at h
          obtain ⟨e', r', hr, _, hr2⟩ := h
          subst hr2
          have := scanExpDigits_length cs1 e' r' hr
          simp only [List.length_cons]; omega
        · simp only [Option.map_eq_some', Prod.mk.injEq, Prod.exists] at h
          obtain ⟨e', r', hr, _, hr2⟩ := h
          subst hr2
          have := scanExpDigits_length (s :: cs1) e' r' hr
          simp only [List.length_cons] at this ⊢; omega
    · simp only [Option.some.injEq, Prod.mk.injEq] at h
      rw [← h.2]

theorem scanNumber_length (cs t r : List Nat) (h : scanNumber cs = some (t, r)) :
    r.length < cs.length := by
  unfold scanNumber at h
  simp only at h
  have hsigned : (match cs with
      | [] => (([] : List Nat), ([] : List Nat))
      | c :: cs1 => if c = 45 then ([45], cs1) else ([], c :: cs1)).2.length ≤ cs.length := by
    cases cs with
    | nil => simp
    | cons c cs1 =>
      simp only
      split <;> simp
  generalize (match cs with
      | [] => (([] : List Nat), ([] : List Nat))
      | c :: cs1 => if c = 45 then ([45], cs1) else ([], c :: cs1)) = signed at h hsigned
  cases hi : scanInt signed.2 with
  | none => simp [hi] at h
  | some p1 =>
    obtain ⟨i, r1⟩ := p1
    simp only [hi] at h
    have l1 := scanInt_length _ _ _ hi
    cases hf : scanFrac r1 with
    | none => simp [hf] at h
    | some p2 =>
      obtain ⟨f, r2⟩ := p2
      simp only [hf] at h
      have l2 := scanFrac_length _ _ _ hf
      cases he : scanExp r2 with
      | none => simp [he] at h
      | some p3 =>
        obtain ⟨e, r3⟩ := p3
        simp only [he, Option.some.injEq, Prod.mk.injEq] at h
        have l3 := scanExp_length _ _ _ he
        rw [← h.2]
        omega

theorem parseValue_scalar_fuel (f g d : Nat) (cs rest0 : List Nat) (c : Nat)
    (hsk : skipSpace cs = c :: rest0) (h1 : ¬ c = 123) (h2 : ¬ c = 91) :
    parseValue (g + 1) d cs = parseValue (f + 1) d cs := by
  rw [parseValue, parseValue]
  simp only [hsk, h1, h2, if_false]

theorem parseValue_scalar_length (f d : Nat) (cs rest0 : List Nat) (c : Nat) (v : JValue)
    (rest : List Nat) (hsk : skipSpace cs = c :: rest0) (h1 : ¬ c = 123) (h2 : ¬ c = 91)
    (h : parseValue (f + 1) d cs = some (v, rest)) : rest.length < cs.length := by
  have l0 : rest0.length + 1 ≤ cs.length := by
    have := skipSpace_length cs
    rw [hsk] at this
    simpa using this
  rw [parseValue] at h
  simp only [hsk, h1, h2, if_false] at h
  split at h
  · simp only [Option.map_eq_some', Prod.mk.injEq, Prod.exists] at h
    obtain ⟨s, r, hr, _, hr2⟩ := h
    subst hr2
    have := scanString_length _ _ _ _ (le_refl _) hr
    omega
  · split at h
    · simp only [Option.map_eq_some', Prod.mk.injEq] at h
      obtain ⟨r, hr, _, hr2⟩ := h
      subst hr2
      have := expectWord_length _ _ _ hr
      omega
    · split at h
      · simp only [Option.map_eq_some', Prod.mk.injEq] at h
        obtain ⟨r, hr, _, hr2⟩ := h
        subst hr2
        have := expectWord_length _ _ _ hr
        omega
      · split at h
        · simp only [Option.map_eq_some', Prod.mk.injEq] at h
          obtain ⟨r, hr, _, hr2⟩ := h
          subst hr2
          have := expectWord_length _ _ _ hr
          omega
        · split at h
          · simp only [Option.map_eq_some', Prod.mk.injEq, Prod.exists] at h
            obtain ⟨t, r, hr, _, hr2⟩ := h
            subst hr2
            have := scanNumber_length _ _ _ hr
            simp only [List.length_cons] at this
            omega
          · simp at h

/-- The fuel of the parser is no limit: a parse that succeeds with some fuel
uses up at least one byte, and it succeeds with the same result for every fuel
that is at least the number of bytes it uses up. -/
theorem parse_fuel (f : Nat) :
    (∀ d cs v rest, parseValue f d cs = some (v, rest) →
      rest.length < cs.length
        ∧ ∀ g, cs.length - rest.length ≤ g → parseValue g d cs = some (v, rest))
    ∧ (∀ d cs ms rest, parseMembers f d cs = some (ms, rest) →
      rest.length < cs.length
        ∧ ∀ g, cs.length - rest.length ≤ g → parseMembers g d cs = some (ms, rest))
    ∧ (∀ d cs vs rest, parseItems f d cs = some (vs, rest) →
      rest.length < cs.length
        ∧ ∀ g, cs.length - rest.length ≤ g → parseItems g d cs = some (vs, rest)) := by
  induction f with
  | zero =>
    refine ⟨?_, ?_, ?_⟩ <;> intro d cs v rest h
    · simp [parseValue] at h
    · simp [parseMembers] at h
    · simp [parseItems] at h
  | succ f ih =>
    obtain ⟨ihV, ihM, ihI⟩ := ih
    refine ⟨?_, ?_, ?_⟩
    · intro d cs v rest h
      cases hsk : skipSpace cs with
      | nil =>
        rw [parseValue] at h
        simp [hsk] at h
      | cons c rest0 =>
        have l0 : rest0.length + 1 ≤ cs.length := by
          have := skipSpace_length cs
          rw [hsk] at this
          simpa using this
        by_cases h1 : c = 123
        · rw [parseValue] at h
          simp only [hsk, h1, if_true] at h
          by_cases hdep : maxNestingDepth ≤ d
          · simp [hdep] at h
          · simp only [hdep, if_false] at h
            cases hex : expect 125 (skipSpace rest0) with
            | some rest1 =>
              simp only [hex, Option.some.injEq, Prod.mk.injEq] at h
              obtain ⟨hv, hr⟩ := h
              subst hr
              have l1 := expect_length _ _ _ hex
              have l2 := skipSpace_length rest0
              refine ⟨by omega, ?_⟩
              intro g hg
              obtain ⟨g', rfl⟩ : ∃ g', g = g' + 1 := ⟨g - 1, by omega⟩
              rw [parseValue]
              simp [hsk, h1, hdep, hex, hv]
            | none =>
              simp only [hex, Option.map_eq_some', Prod.mk.injEq, Prod.exists] at h
              obtain ⟨ms, r, hm, hv, hr⟩ := h
              subst hr
              obtain ⟨lm, hmg⟩ := ihM _ _ _ _ hm
              refine ⟨by omega, ?_⟩
              intro g hg
              obtain ⟨g', rfl⟩ : ∃ g', g = g' + 1 := ⟨g - 1, by omega⟩
              rw [parseValue]
              simp [hsk, h1, hdep, hex, hmg g' (by omega), hv]
        · by_cases h2 : c = 91
          · rw [parseValue] at h
            have e91 : ¬ (91 : Nat) = 123 := by decide
            simp only [hsk, h2, e91, if_true, if_false] at h
            by_cases hdep : maxNestingDepth ≤ d
            · simp [hdep] at h
            · simp only [hdep, if_false] at h
              cases hex : expect 93 (skipSpace rest0) with
              | some rest1 =>
                simp only [hex, Option.some.injEq, Prod.mk.injEq] at h
                obtain ⟨hv, hr⟩ := h
                subst hr
                have l1 := expect_length _ _ _ hex
                have l2 := skipSpace_length rest0
                refine ⟨by omega, ?_⟩
                intro g hg
                obtain ⟨g', rfl⟩ : ∃ g', g = g' + 1 := ⟨g - 1, by omega⟩
                rw [parseValue]
                simp [hsk, h1, h2, hdep, hex, hv]
              | none =>
                simp only [hex, Option.map_eq_some', Prod.mk.injEq, Prod.exists] at h
                obtain ⟨vs, r, hm, hv, hr⟩ := h
                subst hr
                obtain ⟨lm, hmg⟩ := ihI _ _ _ _ hm
                refine ⟨by omega, ?_⟩
                intro g hg
                obtain ⟨g', rfl⟩ : ∃ g', g = g' + 1 := ⟨g - 1, by omega⟩
                rw [parseValue]
                simp [hsk, h1, h2, hdep, hex, hmg g' (by omega), hv]
          · have hl := parseValue_scalar_length f d cs rest0 c v rest hsk h1 h2 h
            refine ⟨hl, ?_⟩
            intro g hg
            obtain ⟨g', rfl⟩ : ∃ g', g = g' + 1 := ⟨g - 1, by omega⟩
            rw [parseValue_scalar_fuel f g' d cs rest0 c hsk h1 h2]
            exact h
    · intro d cs ms rest h
      rw [parseMembers] at h
      cases he0 : expect 34 (skipSpace cs) with
      | none => simp [he0] at h
      | some r0 =>
        simp only [he0] at h
        have l0 := expect_length _ _ _ he0
        have l0' := skipSpace_length cs
        cases hs : scanString r0 with
        | none => simp [hs] at h
        | some p =>
          obtain ⟨key, r1⟩ := p
          simp only [hs] at h
          have l1 := scanString_length _ _ _ _ (le_refl _) hs
          cases he1 : expect 58 (skipSpace r1) with
          | none => simp [he1] at h
          | some r2 =>
            simp only [he1] at h
            have l2 := expect_length _ _ _ he1
            have l2' := skipSpace_length r1
            cases hv : parseValue f d r2 with
            | none => simp [hv] at h
            | some q =>
              obtain ⟨v, r3⟩ := q
              simp only [hv] at h
              obtain ⟨l3, hvg⟩ := ihV _ _ _ _ hv
              cases hsk : skipSpace r3 with
              | nil => simp [hsk] at h
              | cons c r4 =>
                simp only [hsk] at h
                have l4 : r4.length + 1 ≤ r3.length := by
                  have := skipSpace_length r3
                  rw [hsk] at this
                  simpa using this
                by_cases h44 : c = 44
                · simp only [h44, if_true, Option.map_eq_some', Prod.mk.injEq, Prod.exists] at h
                  obtain ⟨ms', r, hm, hms, hr⟩ := h
                  subst hr
                  obtain ⟨l5, hmg⟩ := ihM _ _ _ _ hm
                  refine ⟨by omega, ?_⟩
                  intro g hg
                  obtain ⟨g', rfl⟩ : ∃ g', g = g' + 1 := ⟨g - 1, by omega⟩
                  rw [parseMembers]
                  simp [he0, hs, he1, hvg g' (by omega), hsk, h44, hmg g' (by omega), hms]
                · by_cases h125 : c = 125
                  · have e125 : ¬ (125 : Nat) = 44 := by decide
                    simp only [h125, e125, if_true, if_false, Option.some.injEq,
                      Prod.mk.injEq] at h
                    obtain ⟨hms, hr⟩ := h
                    subst hr
                    refine ⟨by omega, ?_⟩
                    intro g hg
                    obtain ⟨g', rfl⟩ : ∃ g', g = g' + 1 := ⟨g - 1, by omega⟩
                    rw [parseMembers]
                    simp [he0, hs, he1, hvg g' (by omega), hsk, h125, hms]
                  · simp [h44, h125] at h
    · intro d cs vs rest h
      rw [parseItems] at h
      cases hv : parseValue f d cs with
      | none => simp [hv] at h
      | some q =>
        obtain ⟨v, r1⟩ := q
        simp only [hv] at h
        obtain ⟨l1, hvg⟩ := ihV _ _ _ _ hv
        cases hsk : skipSpace r1 with
        | nil => simp [hsk] at h
        | cons c r2 =>
          simp only [hsk] at h
          have l2 : r2.length + 1 ≤ r1.length := by
            have := skipSpace_length r1
            rw [hsk] at this
            simpa using this
          by_cases h44 : c = 44
          · simp only [h44, if_true, Option.map_eq_some', Prod.mk.injEq, Prod.exists] at h
            obtain ⟨vs', r, hm, hvs, hr⟩ := h
            subst hr
            obtain ⟨l3, hmg⟩ := ihI _ _ _ _ hm
            refine ⟨by omega, ?_⟩
            intro g hg
            obtain ⟨g', rfl⟩ : ∃ g', g = g' + 1 := ⟨g - 1, by omega⟩
            rw [parseItems]
            simp [hvg g' (by omega), hsk, h44, hmg g' (by omega), hvs]
          · by_cases h93 : c = 93
            · have e93 : ¬ (93 : Nat) = 44 := by decide
              simp only [h93, e93, if_true, if_false, Option.some.injEq, Prod.mk.injEq] at h
              obtain ⟨hvs, hr⟩ := h
              subst hr
              refine ⟨by omega, ?_⟩
              intro g hg
              obtain ⟨g', rfl⟩ : ∃ g', g = g' + 1 := ⟨g - 1, by omega⟩
              rw [parseItems]
              simp [hvg g' (by omega), hsk, h93, hvs]
            · simp [h44, h93] at h

/-- Whenever some fuel makes the whole input parse as one JSON value, `parseJSON`
returns that value: its `none` is a syntax error of the input. -/
theorem parseJSON_complete (raw : List Nat) (fuel : Nat) (v : JValue) (rest : List Nat)
    (h : parseValue fuel 0 raw = some (v, rest)) (hrest : skipSpace rest = []) :
    parseJSON raw = some v := by
  obtain ⟨_, hg⟩ := (parse_fuel fuel).1 0 raw v rest h
  unfold parseJSON
  rw [hg (raw.length + 1) (by omega)]
  simp [hrest]

/-! ## The frame bound -/

/-- C8. Frame bound of 1024 bytes: `MakePduBuffer` returns a buffer of exactly
1024 bytes, and for every `PDU` whose serialized form is longer than 1024 bytes,
`PduFromBytes` applied to the first 1024 bytes of that serialization returns an
error (a syntax error, together with the zero `PDU`): the first of the two
outcomes the frame bound allows, so no `PDU` with other data is ever returned
without error. The error is one of the input, not of the fuel of the parser: no
fuel makes the cut bytes parse as one JSON value. -/
theorem PduFromBytes_truncated (m : PDU) (hm : m.Valid)
    (hlen : MAX_PDU_SIZE < (PduToBytes m).1.length) :
    MakePduBuffer.length = 1024
    ∧ PduFromBytes ((PduToBytes m).1.take MakePduBuffer.length)
        = ({ Mtype := 0, Len := 0, Data := none }, some JsonError.syntaxError)
    ∧ (∀ fuel v rest,
        parseValue fuel 0 ((PduToBytes m).1.take MakePduBuffer.length) = some (v, rest) →
        skipSpace rest ≠ []) := by
  have hb : MakePduBuffer.length = MAX_PDU_SIZE := by simp [MakePduBuffer]
  have hnone := parseJSON_take m hm hlen
  refine ⟨by rw [hb]; rfl, ?_, ?_⟩
  · rw [hb]
    unfold PduFromBytes PduToBytes jsonUnmarshal at *
    rw [hnone]
  · intro fuel v rest h hrest
    rw [hb] at h
    have := parseJSON_complete _ fuel v rest h hrest
    unfold PduToBytes at this
    rw [hnone] at this
    exact Option.noConfusion this

/-- C8 at a `PDU` with 768 bytes of data, whose serialization has more than
1024 bytes. -/
theorem PduFromBytes_truncated_witness :
    PDU.Valid largePDU
    ∧ MAX_PDU_SIZE < (PduToBytes largePDU).1.length
    ∧ MakePduBuffer.length = 1024
    ∧ PduFromBytes ((PduToBytes largePDU).1.take MakePduBuffer.length)
        = ({ Mtype := 0, Len := 0, Data := none }, some JsonError.syntaxError) :=
  ⟨largePDU_valid, largePDU_length,
   (PduFromBytes_truncated largePDU largePDU_valid largePDU_length).1,
   (PduFromBytes_truncated largePDU largePDU_valid largePDU_length).2.1⟩

/-! ## The loop of `protocolHandler` -/

theorem jsonUnmarshal_jsonMarshal (m : PDU) (hm : m.Valid) :
    PduFromBytes (PduToBytes m).1 = (m, none) := by
  unfold PduFromBytes PduToBytes jsonUnmarshal
  rw [parseJSON_jsonMarshal m hm.2.2]
  exact foldl_storeMember_marshal m _ hm

/-- A frame that fits the read buffer is decoded to the PDU it was made from. -/
theorem PduFromBytes_frame (m : PDU) (hm : m.Valid)
    (hfit : (PduToBytes m).1.length ≤ MAX_PDU_SIZE) :
    PduFromBytes ((PduToBytes m).1.take MakePduBuffer.length) = (m, none) := by
  have hb : MakePduBuffer.length = MAX_PDU_SIZE := by simp [MakePduBuffer]
  rw [hb, List.take_of_length_le hfit]
  exact jsonUnmarshal_jsonMarshal m hm

/-- One turn of the loop on a read that decodes: the PDU is handled and the
loop goes on in the registry that leaves. -/
theorem protocolHandler_bytes (env : Env) (s : Server) (stream : Nat) (addr : List Nat)
    (raw : List Nat) (rest : List (Env × ReadResult))
    (hdec : (PduFromBytes (raw.take MakePduBuffer.length)).2 = none) :
    protocolHandler stream addr ((env, ReadResult.bytes raw) :: rest) s
      = ((protocolHandler stream addr rest
            (handlePDU env s stream addr (PduFromBytes (raw.take MakePduBuffer.length)).1).1).1,
          (handlePDU env s stream addr (PduFromBytes (raw.take MakePduBuffer.length)).1).2
            ++ (protocolHandler stream addr rest
              (handlePDU env s stream addr
                (PduFromBytes (raw.take MakePduBuffer.length)).1).1).2) := by
  simp [protocolHandler, hdec]

theorem protocolHandler_single (env : Env) (s : Server) (stream : Nat) (addr : List Nat)
    (raw : List Nat) (data : PDU)
    (hdec : PduFromBytes (raw.take MakePduBuffer.length) = (data, none)) :
    protocolHandler stream addr [(env, ReadResult.bytes raw)] s
      = handlePDU env s stream addr data := by
  have h2 : (PduFromBytes (raw.take MakePduBuffer.length)).2 = none := by rw [hdec]
  rw [protocolHandler_bytes env s stream addr raw [] h2, hdec]
  simp [protocolHandler]

theorem protocolHandler_cons (env : Env) (s : Server) (stream : Nat) (addr : List Nat)
    (raw : List Nat) (data : PDU) (rest : List (Env × ReadResult))
    (hdec : PduFromBytes (raw.take MakePduBuffer.length) = (data, none)) :
    protocolHandler stream addr ((env, ReadResult.bytes raw) :: rest) s
      = ((protocolHandler stream addr rest
            (protocolHandler stream addr [(env, ReadResult.bytes raw)] s).1).1,
          (protocolHandler stream addr [(env, ReadResult.bytes raw)] s).2
            ++ (protocolHandler stream addr rest
              (protocolHandler stream addr [(env, ReadResult.bytes raw)] s).1).2) := by
  have h2 : (PduFromBytes (raw.take MakePduBuffer.length)).2 = none := by rw [hdec]
  rw [protocolHandler_single env s stream addr raw data hdec,
    protocolHandler_bytes env s stream addr raw rest h2, hdec]

/-- The loop over reads that all decode, followed by further reads: the PDUs
are handled one after the other, and the loop goes on with the further reads in
the registry reached. -/
theorem protocolHandler_append (stream : Nat) (addr : List Nat)
    (tail : List (Env × ReadResult)) : ∀ (pre : List (Env × List Nat)) (s : Server),
    (∀ p ∈ pre, (PduFromBytes (p.2.take MakePduBuffer.length)).2 = none) →
    protocolHandler stream addr (bytesReads pre ++ tail) s
      = ((protocolHandler stream addr tail (handleReads stream addr pre s).1).1,
          (handleReads stream addr pre s).2
            ++ (protocolHandler stream addr tail (handleReads stream addr pre s).1).2) := by
  intro pre
  induction pre with
  | nil => intro s _; simp [bytesReads, handleReads]
  | cons p pre ih =>
    intro s hpre
    obtain ⟨env, raw⟩ := p
    have h1 : (PduFromBytes (raw.take MakePduBuffer.length)).2 = none :=
      hpre (env, raw) (List.mem_cons_self _ _)
    have ih' := ih (handlePDU env s stream addr (PduFromBytes (raw.take MakePduBuffer.length)).1).1
      (fun q hq => hpre q (List.mem_cons_of_mem _ hq))
    have hshape : bytesReads ((env, raw) :: pre) ++ tail
        = (env, ReadResult.bytes raw) :: (bytesReads pre ++ tail) := by
      simp [bytesReads]
    rw [hshape, protocolHandler_bytes env s stream addr raw _ h1, ih']
    simp [handleReads, List.append_assoc]

/-- C3. Cleanup on termination of the per-stream handler: when the loop of
`protocolHandler`, after any number of reads that decoded and were handled,
ends on a read failure or on a decode failure, the entry of the stream is
removed from `streams` and the entry of the address from `usernames`, all other
entries are as they were right before, and after the events of the handled PDUs
the handler closes the stream and writes exactly one message to each remaining
registered stream and none to the stream itself: the bytes of the PDU of kind
`TYPE_LEAVE` (2) whose payload is `u ++ " left the chat"`, `u` being the
username recorded for the stream right before the removal (empty when there is
none). -/
theorem protocolHandler_exit (env : Env) (s : Server) (stream : Nat) (addr : List Nat)
    (pre : List (Env × List Nat)) (res : ReadResult) (rest : List (Env × ReadResult))
    (hpre : ∀ p ∈ pre, (PduFromBytes (p.2.take MakePduBuffer.length)).2 = none)
    (hfail : res = ReadResult.error ∨ ∃ raw, res = ReadResult.bytes raw
      ∧ (PduFromBytes (raw.take MakePduBuffer.length)).2 ≠ none) :
    (protocolHandler stream addr (bytesReads pre ++ (env, res) :: rest) s).1.streams.lookup stream
        = none
    ∧ (protocolHandler stream addr (bytesReads pre ++ (env, res) :: rest) s).1.usernames.lookup
          addr = none
    ∧ (∀ k, k ≠ stream →
        (protocolHandler stream addr (bytesReads pre ++ (env, res) :: rest) s).1.streams.lookup k
          = (handleReads stream addr pre s).1.streams.lookup k)
    ∧ (∀ a, a ≠ addr →
        (protocolHandler stream addr (bytesReads pre ++ (env, res) :: rest) s).1.usernames.lookup a
          = (handleReads stream addr pre s).1.usernames.lookup a)
    ∧ ∃ exitEvents,
        (protocolHandler stream addr (bytesReads pre ++ (env, res) :: rest) s).2
          = (handleReads stream addr pre s).2 ++ Event.close stream :: exitEvents
        ∧ (∀ k, (writeTargets exitEvents).count k
            = if k ≠ stream ∧ k ∈ (handleReads stream addr pre s).1.streams.keys then 1 else 0)
        ∧ (∀ e ∈ exitEvents, ∃ k ok, e = Event.write k
            (PduToBytes
              { Mtype := 2,
                Len := (mapGet (handleReads stream addr pre s).1.streams stream
                          ++ leftTheChat).length % 2 ^ 32,
                Data := some (mapGet (handleReads stream addr pre s).1.streams stream
                          ++ leftTheChat) }).1 ok) := by
  rw [protocolHandler_append stream addr _ pre s hpre,
    protocolHandler_fail env _ stream addr res rest hfail, handlerExit_state,
    handlerExit_events]
  refine ⟨lookup_mapDelete_same _ _, lookup_mapDelete_same _ _,
    fun k hk => lookup_mapDelete_ne _ _ _ hk, fun a ha => lookup_mapDelete_ne _ _ _ ha,
    _, rfl, ?_, ?_⟩
  · intro k
    rw [broadcast_count]
    simp only [mem_keys_mapDelete]
  · intro e he
    obtain ⟨k, hk⟩ := broadcast_mem _ _ _ e he
    exact ⟨k, _, hk⟩
theorem joinPDU_valid : PDU.Valid joinPDU := by
  simp [PDU.Valid, joinPDU, NewPDU, TYPE_JOIN]

theorem joinPDU_fits : (PduToBytes joinPDU).1.length ≤ MAX_PDU_SIZE := by decide

theorem joinPDU_decodes :
    PduFromBytes ((PduToBytes joinPDU).1.take MakePduBuffer.length) = (joinPDU, none) :=
  PduFromBytes_frame joinPDU joinPDU_valid joinPDU_fits

theorem listPDU_valid : PDU.Valid listPDU := by
  simp [PDU.Valid, listPDU, NewPDU, TYPE_DATA]

theorem listPDU_fits : (PduToBytes listPDU).1.length ≤ MAX_PDU_SIZE := by decide

theorem listPDU_decodes :
    PduFromBytes ((PduToBytes listPDU).1.take MakePduBuffer.length) = (listPDU, none) :=
  PduFromBytes_frame listPDU listPDU_valid listPDU_fits

theorem joinFrame_decodes : ∀ p ∈ [(Env.inOrder, (PduToBytes joinPDU).1)],
    (PduFromBytes (p.2.take MakePduBuffer.length)).2 = none := by
  intro p hp
  rw [List.mem_singleton] at hp
  subst hp
  rw [joinPDU_decodes]

/-- C3 at the registry of three streams, when stream 2 receives the frame of the
PDU with payload `"bob: hi"` and its next read fails. -/
theorem protocolHandler_exit_witness :
    (∀ p ∈ [(Env.inOrder, (PduToBytes joinPDU).1)],
      (PduFromBytes (p.2.take MakePduBuffer.length)).2 = none)
    ∧ (ReadResult.error = ReadResult.error ∨ ∃ raw, ReadResult.error = ReadResult.bytes raw
      ∧ (PduFromBytes (raw.take MakePduBuffer.length)).2 ≠ none)
    ∧ (protocolHandler 2 [49]
        (bytesReads [(Env.inOrder, (PduToBytes joinPDU).1)]
          ++ (Env.inOrder, ReadResult.error) :: []) sampleServer).1.streams.lookup 2 = none
    ∧ (protocolHandler 2 [49]
        (bytesReads [(Env.inOrder, (PduToBytes joinPDU).1)]
          ++ (Env.inOrder, ReadResult.error) :: []) sampleServer).1.usernames.lookup [49]
        = none :=
  ⟨joinFrame_decodes, Or.inl rfl,
   (protocolHandler_exit Env.inOrder sampleServer 2 [49] [(Env.inOrder, (PduToBytes joinPDU).1)]
      ReadResult.error [] joinFrame_decodes (Or.inl rfl)).1,
   (protocolHandler_exit Env.inOrder sampleServer 2 [49] [(Env.inOrder, (PduToBytes joinPDU).1)]
      ReadResult.error [] joinFrame_decodes (Or.inl rfl)).2.1⟩
/-- C6. The `/list` control message: for every registry state, stream and
username `u` without `": "`, when `protocolHandler` on the stream gets a read
that decodes to a PDU whose payload is `u ++ ": /list"`, then after that turn of
the loop the username recorded for the stream (and for the address) is `u`, the
only event is one write to the requesting stream (so nothing is written to
another stream, the request is not broadcast), the bytes written are the
active-user listing of the updated registry, and the user list in it holds `u`
when `u` is not empty and every non-empty username of the other streams; the
loop then goes on with the next reads in that registry. -/
theorem protocolHandler_list (env : Env) (s : Server) (stream : Nat) (addr : List Nat)
    (raw : List Nat) (data : PDU) (u : List Nat)
    (hdec : PduFromBytes (raw.take MakePduBuffer.length) = (data, none))
    (hu : ∀ a b, u ≠ a ++ colonSpace ++ b)
    (hd : dataString data = u ++ colonSpace ++ listCommand) :
    (protocolHandler stream addr [(env, ReadResult.bytes raw)] s).1.streams.lookup stream = some u
    ∧ (protocolHandler stream addr [(env, ReadResult.bytes raw)] s).1.usernames.lookup addr
        = some u
    ∧ (protocolHandler stream addr [(env, ReadResult.bytes raw)] s).2
        = [Event.write stream
            (PduToBytes (listResponse env
              (protocolHandler stream addr [(env, ReadResult.bytes raw)] s).1)).1
            (env.writeOk stream
              (PduToBytes (listResponse env
                (protocolHandler stream addr [(env, ReadResult.bytes raw)] s).1)).1)]
    ∧ (listResponse env (protocolHandler stream addr [(env, ReadResult.bytes raw)] s).1).Data
        = some (activeUsersLabel
            ++ Join (userList env (protocolHandler stream addr [(env, ReadResult.bytes raw)] s).1)
                commaSpace)
    ∧ (u ≠ [] →
        u ∈ userList env (protocolHandler stream addr [(env, ReadResult.bytes raw)] s).1)
    ∧ (∀ k v, k ≠ stream → s.streams.lookup k = some v → v ≠ [] →
        v ∈ userList env (protocolHandler stream addr [(env, ReadResult.bytes raw)] s).1)
    ∧ (∀ rest, protocolHandler stream addr ((env, ReadResult.bytes raw) :: rest) s
        = ((protocolHandler stream addr rest
              (protocolHandler stream addr [(env, ReadResult.bytes raw)] s).1).1,
            (protocolHandler stream addr [(env, ReadResult.bytes raw)] s).2
              ++ (protocolHandler stream addr rest
                (protocolHandler stream addr [(env, ReadResult.bytes raw)] s).1).2)) := by
  have hcons := fun rest => protocolHandler_cons env s stream addr raw data rest hdec
  have h := handlePDU_list env s stream addr data u hu hd
  rw [← protocolHandler_single env s stream addr raw data hdec] at h
  exact ⟨h.1, h.2.1, h.2.2.1, h.2.2.2.1, h.2.2.2.2.1, h.2.2.2.2.2, hcons⟩

/-- C6 at the registry of three streams, when the frame of the PDU with payload
`"carol: /list"` is read on stream 2. -/
theorem protocolHandler_list_witness :
    PduFromBytes ((PduToBytes listPDU).1.take MakePduBuffer.length) = (listPDU, none)
    ∧ (∀ a b : List Nat, [99, 97, 114, 111, 108] ≠ a ++ colonSpace ++ b)
    ∧ dataString listPDU = [99, 97, 114, 111, 108] ++ colonSpace ++ listCommand
    ∧ (protocolHandler 2 [49] [(Env.inOrder, ReadResult.bytes (PduToBytes listPDU).1)]
        sampleServer).1.streams.lookup 2 = some [99, 97, 114, 111, 108]
    ∧ (protocolHandler 2 [49] [(Env.inOrder, ReadResult.bytes (PduToBytes listPDU).1)]
        sampleServer).1.usernames.lookup [49] = some [99, 97, 114, 111, 108] :=
  ⟨listPDU_decodes, carol_free, by decide,
   (protocolHandler_list Env.inOrder sampleServer 2 [49] (PduToBytes listPDU).1 listPDU
      [99, 97, 114, 111, 108] listPDU_decodes carol_free (by decide)).1,
   (protocolHandler_list Env.inOrder sampleServer 2 [49] (PduToBytes listPDU).1 listPDU
      [99, 97, 114, 111, 108] listPDU_decodes carol_free (by decide)).2.1⟩

/-- C7. Payload convention split: for every read of `protocolHandler` that
decodes to a PDU, if the payload holds `": "` then it is `u ++ ": " ++ t` for a
`u` without `": "` (the cut is at the first occurrence), `SplitN` gives exactly
`[u, t]`, and after that turn of the loop the username of the stream and of the
address is `u`; if the payload holds no `": "` then the registry is unchanged
and the events of the turn are the broadcast of the received PDU as it is. In
particular the payload the client builds from a username `u` without `": "` and
a line `l` is split into exactly `u` and `l`, and when the frame of that PDU fits
the buffer the handler that reads it sets the username to `u`. -/
theorem protocolHandler_split (env : Env) (s : Server) (stream : Nat) (addr : List Nat)
    (raw : List Nat) (data : PDU)
    (hdec : PduFromBytes (raw.take MakePduBuffer.length) = (data, none)) :
    ((∃ a b, dataString data = a ++ colonSpace ++ b) →
      ∃ u t, dataString data = u ++ colonSpace ++ t
        ∧ (∀ a b, u ≠ a ++ colonSpace ++ b)
        ∧ SplitN (dataString data) colonSpace 2 = [u, t]
        ∧ (protocolHandler stream addr [(env, ReadResult.bytes raw)] s).1
            = updateIdentity s stream addr u
        ∧ (protocolHandler stream addr [(env, ReadResult.bytes raw)] s).1.streams.lookup stream
            = some u
        ∧ (protocolHandler stream addr [(env, ReadResult.bytes raw)] s).1.usernames.lookup addr
            = some u)
    ∧ ((∀ a b, dataString data ≠ a ++ colonSpace ++ b) →
        (protocolHandler stream addr [(env, ReadResult.bytes raw)] s).1 = s
        ∧ protocolHandler stream addr [(env, ReadResult.bytes raw)] s = broadcast env s data
        ∧ (protocolHandler stream addr [(env, ReadResult.bytes raw)] s).2
            = (env.rangeOrder s.streams.entries).map
                (fun e => Event.write e.1 (PduToBytes data).1
                  (env.writeOk e.1 (PduToBytes data).1)))
    ∧ (∀ rest, protocolHandler stream addr ((env, ReadResult.bytes raw) :: rest) s
        = ((protocolHandler stream addr rest
              (protocolHandler stream addr [(env, ReadResult.bytes raw)] s).1).1,
            (protocolHandler stream addr [(env, ReadResult.bytes raw)] s).2
              ++ (protocolHandler stream addr rest
                (protocolHandler stream addr [(env, ReadResult.bytes raw)] s).1).2))
    ∧ (∀ u l : List Nat, (∀ a b, u ≠ a ++ colonSpace ++ b) →
        SplitN (clientPayload u l) colonSpace 2 = [u, l]
        ∧ ((∀ b ∈ clientPayload u l, b < 256) →
            (PduToBytes (NewPDU TYPE_DATA (some (clientPayload u l)))).1.length ≤ MAX_PDU_SIZE →
            (protocolHandler stream addr
                [(env, ReadResult.bytes
                  (PduToBytes (NewPDU TYPE_DATA (some (clientPayload u l)))).1)] s).1
              = updateIdentity s stream addr u)) := by
  have hcons := fun rest => protocolHandler_cons env s stream addr raw data rest hdec
  have h := handlePDU_split env s stream addr data
  rw [← protocolHandler_single env s stream addr raw data hdec] at h
  refine ⟨h.1, h.2.1, hcons, ?_⟩
  intro u l hu
  refine ⟨h.2.2 u l hu, ?_⟩
  intro hbytes hfit
  have hvalid : PDU.Valid (NewPDU TYPE_DATA (some (clientPayload u l))) := by
    refine ⟨by simp [NewPDU, TYPE_DATA], Nat.mod_lt _ (by norm_num), ?_⟩
    intro d hd b hb
    cases hd
    exact hbytes b hb
  rw [protocolHandler_single env s stream addr _ _ (PduFromBytes_frame _ hvalid hfit)]
  exact handlePDU_state_some env s stream addr _ u l rfl hu

/-- C7 at the frame of the PDU with payload `"bob: hi"`, read on stream 2 of the
registry of three streams. -/
theorem protocolHandler_split_witness :
    PduFromBytes ((PduToBytes joinPDU).1.take MakePduBuffer.length) = (joinPDU, none)
    ∧ (∃ a b, dataString joinPDU = a ++ colonSpace ++ b)
    ∧ (∃ u t, dataString joinPDU = u ++ colonSpace ++ t
        ∧ (∀ a b, u ≠ a ++ colonSpace ++ b)
        ∧ SplitN (dataString joinPDU) colonSpace 2 = [u, t]
        ∧ (protocolHandler 2 [49] [(Env.inOrder, ReadResult.bytes (PduToBytes joinPDU).1)]
            sampleServer).1 = updateIdentity sampleServer 2 [49] u
        ∧ (protocolHandler 2 [49] [(Env.inOrder, ReadResult.bytes (PduToBytes joinPDU).1)]
            sampleServer).1.streams.lookup 2 = some u
        ∧ (protocolHandler 2 [49] [(Env.inOrder, ReadResult.bytes (PduToBytes joinPDU).1)]
            sampleServer).1.usernames.lookup [49] = some u) :=
  ⟨joinPDU_decodes, ⟨[98, 111, 98], [104, 105], by decide⟩,
   (protocolHandler_split Env.inOrder sampleServer 2 [49] (PduToBytes joinPDU).1 joinPDU
      joinPDU_decodes).1 ⟨[98, 111, 98], [104, 105], by decide⟩⟩

/-- C10, as stated, fails: on the registry of three streams, stream 2 has an
empty username, and a PDU of kind `TYPE_JOIN` (1) with the payload `"bob: hi"`
handled on stream 2 sets its username to `bob`, also when `protocolHandler`
reads the frame of that PDU from the stream. -/
theorem join_sets_username :
    2 ∈ sampleServer.streams.keys
    ∧ mapGet sampleServer.streams 2 = []
    ∧ joinPDU.Mtype = TYPE_JOIN
    ∧ dataString joinPDU = [98, 111, 98, 58, 32, 104, 105]
    ∧ mapGet (handlePDU Env.inOrder sampleServer 2 [49] joinPDU).1.streams 2 = [98, 111, 98]
    ∧ PduFromBytes ((PduToBytes joinPDU).1.take MakePduBuffer.length) = (joinPDU, none)
    ∧ mapGet (protocolHandler 2 [49] [(Env.inOrder, ReadResult.bytes (PduToBytes joinPDU).1)]
        sampleServer).1.streams 2 = [98, 111, 98] := by
  refine ⟨by decide, by decide, by decide, by decide, by decide, joinPDU_decodes, ?_⟩
  rw [protocolHandler_single Env.inOrder sampleServer 2 [49] _ joinPDU joinPDU_decodes]
  decide

/-- C10, amended. The kind of a PDU plays no part in the identity update: for
every registry state and stream, the registry after `protocolHandler` handles a
decoded PDU is the same for every kind (`TYPE_DATA`, `TYPE_JOIN`, `TYPE_LEAVE`,
`TYPE_ACK` or any other) given to the PDU; when the payload holds no `": "` the
registry is unchanged, so an empty username stays empty; when the payload is
`u ++ ": " ++ t` with no `": "` in `u`, the username recorded for the stream
becomes `u`. The same holds of the turn of the loop of `protocolHandler` on a
read that decodes to the PDU: its registry is the one the handling gives. -/
theorem handlePDU_any_kind (env : Env) (s : Server) (stream : Nat) (addr : List Nat)
    (data : PDU) :
    (∀ kind : Nat, (handlePDU env s stream addr { data with Mtype := kind }).1
        = (handlePDU env s stream addr data).1)
    ∧ ((∀ a b, dataString data ≠ a ++ colonSpace ++ b) →
        (handlePDU env s stream addr data).1 = s
        ∧ mapGet (handlePDU env s stream addr data).1.streams stream = mapGet s.streams stream)
    ∧ (∀ u t : List Nat, dataString data = u ++ colonSpace ++ t →
        (∀ a b, u ≠ a ++ colonSpace ++ b) →
        mapGet (handlePDU env s stream addr data).1.streams stream = u)
    ∧ (∀ raw, PduFromBytes (raw.take MakePduBuffer.length) = (data, none) →
        (protocolHandler stream addr [(env, ReadResult.bytes raw)] s).1
            = (handlePDU env s stream addr data).1
        ∧ (∀ kind raw2,
            PduFromBytes (raw2.take MakePduBuffer.length) = ({ data with Mtype := kind }, none) →
            (protocolHandler stream addr [(env, ReadResult.bytes raw2)] s).1
              = (protocolHandler stream addr [(env, ReadResult.bytes raw)] s).1)) := by
  have h := handlePDU_kind_free env s stream addr data
  refine ⟨h.1, h.2.1, h.2.2, ?_⟩
  intro raw hdec
  refine ⟨by rw [protocolHandler_single env s stream addr raw data hdec], ?_⟩
  intro kind raw2 hdec2
  rw [protocolHandler_single env s stream addr raw data hdec,
    protocolHandler_single env s stream addr raw2 _ hdec2]
  exact h.1 kind

/-- C10, amended, at the PDU of kind `TYPE_JOIN` with payload `"bob: hi"` on
stream 2 of the registry of three streams. -/
theorem handlePDU_any_kind_witness :
    dataString joinPDU = [98, 111, 98] ++ colonSpace ++ [104, 105]
    ∧ (∀ a b : List Nat, [98, 111, 98] ≠ a ++ colonSpace ++ b)
    ∧ mapGet (handlePDU Env.inOrder sampleServer 2 [49] joinPDU).1.streams 2 = [98, 111, 98]
    ∧ PduFromBytes ((PduToBytes joinPDU).1.take MakePduBuffer.length) = (joinPDU, none)
    ∧ (protocolHandler 2 [49] [(Env.inOrder, ReadResult.bytes (PduToBytes joinPDU).1)]
        sampleServer).1 = (handlePDU Env.inOrder sampleServer 2 [49] joinPDU).1 :=
  ⟨by decide, Index_none colonSpace _ (by decide),
   (handlePDU_any_kind Env.inOrder sampleServer 2 [49] joinPDU).2.2.1 [98, 111, 98] [104, 105]
     (by decide) (Index_none colonSpace _ (by decide)),
   joinPDU_decodes,
   ((handlePDU_any_kind Env.inOrder sampleServer 2 [49] joinPDU).2.2.2 (PduToBytes joinPDU).1
     joinPDU_decodes).1⟩

end Chat
